import Mathlib

/-!
Shallow embedding of the decision-tree layout engine (src, `layoutWithElk` and its
helper passes) together with proofs about the engine's behaviour.

Modelling conventions:
* JS numbers are modelled as `ℚ` (all arithmetic the engine performs is exact
  field arithmetic: `+`, `-`, `*`, `/2`, `min`, `max`).
* Optional numeric fields (`node.width`, `node.height`) are `Option ℚ`; the JS
  fallback `v || d` (which also replaces `0`) is modelled by `orD`.
* The ELK delegate (`elk.layout`) is an abstract fallible function from the
  request graph to a list of per-node coordinates; a node id missing from the
  response defaults to `(0, 0)` exactly as `layoutNode?.x || 0` does.
* The source's unguarded recursions (`calculateNodeSubtreeWidth`,
  `getTreeDepth`, `getOutputTreeDescendants`) are modelled with explicit fuel;
  on inputs where the source terminates, fuel `edges.length + 1` bounds the
  recursion depth, so the fuelled versions agree with the source there.
-/

/-- Constant `DEFAULT_NODE_WIDTH` from the source. -/
def DEFAULT_NODE_WIDTH : ℚ := 500

/-- Constant `DEFAULT_NODE_HEIGHT` from the source. -/
def DEFAULT_NODE_HEIGHT : ℚ := 300

/-- Constant `VERTICAL_SPACING` from the source (sibling spacing and sink gap). -/
def VERTICAL_SPACING : ℚ := 100

/-- Constant `NODE_SPACING` from the source (also the max parent–child gap). -/
def NODE_SPACING : ℚ := 50

/-- Constant `END_NODE_ID` from the source: the reserved sink node id. -/
def END_NODE_ID : String := "end-node"

/-- A 2D position, top-left origin, y growing downward. -/
structure Pos where
  x : ℚ
  y : ℚ
deriving DecidableEq, Repr

/-- A react-flow node, restricted to the fields the layout engine reads. -/
structure Node where
  id : String
  position : Pos
  width : Option ℚ
  height : Option ℚ
deriving DecidableEq, Repr

/-- A react-flow edge (source/target are node ids). -/
structure Edge where
  id : String
  source : String
  target : String
deriving DecidableEq, Repr

/-- JS numeric fallback `v || d`: `undefined` and `0` are falsy. -/
def orD (v : Option ℚ) (d : ℚ) : ℚ :=
  match v with
  | none => d
  | some x => if x = 0 then d else x

/-- Effective width `node.width || DEFAULT_NODE_WIDTH`. -/
def widthD (n : Node) : ℚ := orD n.width DEFAULT_NODE_WIDTH

/-- Effective height `node.height || DEFAULT_NODE_HEIGHT`. -/
def heightD (n : Node) : ℚ := orD n.height DEFAULT_NODE_HEIGHT

/-- Replace a node's x coordinate. -/
def setX (v : ℚ) (n : Node) : Node := { n with position := ⟨v, n.position.y⟩ }

/-- Replace a node's y coordinate. -/
def setY (v : ℚ) (n : Node) : Node := { n with position := ⟨n.position.x, v⟩ }

/-- JS `nodes.find(n => n.id === i)`. -/
def lookup : List Node → String → Option Node
  | [], _ => none
  | n :: ns, i => if n.id = i then some n else lookup ns i

/-- JS `nodes.findIndex(n => n.id === i)` followed by replacing that slot:
update the first node carrying the given id, leave the rest alone. -/
def updateFirst (i : String) (f : Node → Node) : List Node → List Node
  | [] => []
  | n :: ns => if n.id = i then f n :: ns else n :: updateFirst i f ns

/-- JS `Math.min(...l)` on the (always nonempty at call sites) list `l`. -/
def minOf : List ℚ → ℚ
  | [] => 0
  | x :: xs => xs.foldl min x

/-- JS `Math.max(...l)` on the (always nonempty at call sites) list `l`. -/
def maxOf : List ℚ → ℚ
  | [] => 0
  | x :: xs => xs.foldl max x

/-- Children recorded for one source id by the `childrenMap` that
`calculateSubtreeWidths`, `centerParentsOverChildren` and `alignSiblingsAtTop`
all build: targets of the edges leaving `k`, in edge order. -/
def childrenOf (es : List Edge) (k : String) : List String :=
  (es.filter (fun e => decide (e.source = k))).map (·.target)

/-- Insertion-ordered key set of that `childrenMap` (JS `Map` iteration order). -/
def sourceKeys (es : List Edge) : List String :=
  es.foldl (fun ks e => if e.source ∈ ks then ks else ks ++ [e.source]) []

/-! The corrective passes, translated line by line from the source. -/

/-- One edge step of `constrainChildrenToParent`: look up the parent, find the
child's slot, and pull the child up when the vertical gap exceeds
`MAX_VERTICAL_GAP = NODE_SPACING`. -/
def constrainStep (ns : List Node) (e : Edge) : List Node :=
  match lookup ns e.source with
  | none => ns
  | some p =>
    match lookup ns e.target with
    | none => ns
    | some c =>
      let parentBottom := p.position.y + heightD p
      if c.position.y - parentBottom > NODE_SPACING then
        updateFirst e.target (setY (parentBottom + NODE_SPACING)) ns
      else ns

/-- Source `constrainChildrenToParent`: for each edge in list order, if the
child sits more than `NODE_SPACING` below the parent's bottom, move it up. -/
def constrainChildrenToParent (ns : List Node) (es : List Edge) : List Node :=
  es.foldl constrainStep ns

/-- One sibling group of `alignSiblingsAtTop`: if a parent has more than one
recorded child and more than one of them is present, snap every present child
to the group's topmost y. -/
def alignGroup (ns : List Node) (mids : List String) : List Node :=
  if 1 < mids.length then
    let memNodes := mids.filterMap (lookup ns)
    if 1 < memNodes.length then
      let topY := minOf (memNodes.map (fun n => n.position.y))
      memNodes.foldl (fun acc c => updateFirst c.id (setY topY) acc) ns
    else ns
  else ns

/-- Source `alignSiblingsAtTop`: group direct children by parent and align each
multi-member group at its topmost y. -/
def alignSiblingsAtTop (ns : List Node) (es : List Edge) : List Node :=
  if ns = [] then ns
  else (sourceKeys es).foldl (fun acc k => alignGroup acc (childrenOf es k)) ns

/-- Fuelled form of the source's unguarded recursive `getTreeDepth` (leaf depth
is 0, parent depth is `1 + max(children)`); fuel exhaustion yields 0, which the
source never hits on inputs where it terminates. -/
def getTreeDepthF (cm : String → List String) : Nat → String → Nat
  | 0, _ => 0
  | fuel + 1, nid =>
    let cs := cm nid
    if cs = [] then 0
    else 1 + (cs.map (getTreeDepthF cm fuel)).foldl max 0

/-- Tree depth as `centerParentsOverChildren` computes it, with the canonical
fuel `es.length + 1` (on cycle-free children maps the recursion depth is
bounded by the number of edges, so this agrees with the source). -/
def depthOf (es : List Edge) (nid : String) : Nat :=
  getTreeDepthF (childrenOf es) (es.length + 1) nid

/-- Stable insertion into a depth-ascending list (equal depths keep their
original relative order, like the stable JS sort). -/
def insertByDepth (d : String → Nat) (k : String) : List String → List String
  | [] => [k]
  | x :: xs => if d k < d x then k :: x :: xs else x :: insertByDepth d k xs

/-- Stable sort by ascending depth, modelling `sort((a, b) => a.depth - b.depth)`. -/
def sortByDepth (d : String → Nat) : List String → List String
  | [] => []
  | x :: xs => insertByDepth d x (sortByDepth d xs)

/-- One parent of `centerParentsOverChildren`: recentre the parent's x over the
bounding box of its present children; children are not moved. -/
def centerStep (es : List Edge) (ns : List Node) (pid : String) : List Node :=
  let cids := childrenOf es pid
  if cids = [] then ns
  else
    let childNodes := cids.filterMap (lookup ns)
    if childNodes = [] then ns
    else
      let childrenLeftmost := minOf (childNodes.map (fun c => c.position.x))
      let childrenRightmost := maxOf (childNodes.map (fun c => c.position.x + widthD c))
      let childrenCenter := (childrenLeftmost + childrenRightmost) / 2
      updateFirst pid (fun p => setX (childrenCenter - widthD p / 2) p) ns

/-- Source `centerParentsOverChildren`: process parents in ascending tree-depth
order, recentring each over its direct children only. -/
def centerParentsOverChildren (ns : List Node) (es : List Edge) : List Node :=
  (sortByDepth (depthOf es) (sourceKeys es)).foldl (centerStep es) ns

/-- The source's iterative, visited-set-guarded descendant collector inside
`centerInputNodeForSkewedGraph`. The JS `while` loop runs at most
`es.length + 1` iterations (each iteration pops one stack entry, and entries
are pushed only once per first visit of an edge's source), so that fuel makes
the fuelled recursion equal to the loop. Stack top is the list head (JS
`push`/`pop` act on the array's end). -/
def getDescNodes (ns : List Node) (es : List Edge) :
    Nat → List String → List String → List Node → List Node
  | 0, _, _, acc => acc
  | fuel + 1, visited, stack, acc =>
    match stack with
    | [] => acc
    | cur :: rest =>
      if cur ∈ visited then getDescNodes ns es fuel visited rest acc
      else
        let childEdges := es.filter (fun e => decide (e.source = cur))
        let children := childEdges.filterMap (fun e => lookup ns e.target)
        getDescNodes ns es fuel (cur :: visited)
          ((children.map (·.id)).reverse ++ rest) (acc ++ children)

/-- All descendants of `rootId` as the source's stack traversal collects them. -/
def descendantsOf (ns : List Node) (es : List Edge) (rootId : String) : List Node :=
  getDescNodes ns es (es.length + 1) [] [rootId] []

/-- One root of `centerInputNodeForSkewedGraph`: recentre the root's x over the
bounding box of its entire descendant set (skip roots without descendants).
`root` is the snapshot taken from the pass's input node list. -/
def skewOne (es : List Edge) (ns : List Node) (root : Node) : List Node :=
  let descendants := descendantsOf ns es root.id
  if descendants = [] then ns
  else
    let leftmostX := minOf (descendants.map (fun n => n.position.x))
    let rightmostX := maxOf (descendants.map (fun n => n.position.x + widthD n))
    let subtreeCenterX := (leftmostX + rightmostX) / 2
    updateFirst root.id (setX (subtreeCenterX - widthD root / 2)) ns

/-- Source `centerInputNodeForSkewedGraph`: for every root (no incoming edge,
not the sink), recentre it over its full descendant bounding box. -/
def centerInputNodeForSkewedGraph (ns : List Node) (es : List Edge) : List Node :=
  let hasIncomingEdge := es.map (·.target)
  let rootNodes := ns.filter (fun n => decide (n.id ∉ hasIncomingEdge ∧ ¬ n.id = END_NODE_ID))
  if rootNodes = [] then ns
  else rootNodes.foldl (skewOne es) ns

/-! Subtree widths, output-tree decomposition, and the pipeline itself. -/

/-- Structural all-or-nothing map into `Option`: the effect of JS
`children.map(recurse)` under the fuel discipline (`none` only on fuel
exhaustion somewhere below). -/
def mapO {α β : Type} (f : α → Option β) : List α → Option (List β)
  | [] => some []
  | c :: cs =>
    match f c, mapO f cs with
    | some b, some bs => some (b :: bs)
    | _, _ => none

/-- Fuelled form of the source's unguarded recursive
`calculateNodeSubtreeWidth`: a leaf reserves `DEFAULT_NODE_WIDTH`; a parent
reserves `max(DEFAULT_NODE_WIDTH, sum(childWidth) + (children.length - 1) *
VERTICAL_SPACING)`. `none` marks fuel exhaustion, i.e. the source recursion has
not terminated within the given depth. -/
def calculateNodeSubtreeWidth (cm : String → List String) : Nat → String → Option ℚ
  | 0, _ => none
  | fuel + 1, nid =>
    let children := cm nid
    if children = [] then some DEFAULT_NODE_WIDTH
    else
      (mapO (calculateNodeSubtreeWidth cm fuel) children).map (fun childWidths =>
        max DEFAULT_NODE_WIDTH
          (childWidths.sum + ((children.length - 1 : ℕ) : ℚ) * VERTICAL_SPACING))

/-- Reserved (ELK) width of one node as `calculateSubtreeWidths` attaches it,
at the canonical fuel; fuel exhaustion falls back to `DEFAULT_NODE_WIDTH`
(never reached on inputs where the source terminates). -/
def elkWidthOf (es : List Edge) (nid : String) : ℚ :=
  (calculateNodeSubtreeWidth (childrenOf es) (es.length + 1) nid).getD DEFAULT_NODE_WIDTH

/-- Fuelled form of the source's unguarded recursive descendant collector in
`getOutputTreeDescendants`: direct children first, then each child's
descendants, in order. -/
def getDescListF (es : List Edge) : Nat → String → List String
  | 0, _ => []
  | fuel + 1, nid =>
    let children := childrenOf es nid
    children ++ children.flatMap (getDescListF es fuel)

/-- Source `getOutputTreeDescendants`: every node reachable forward from the
sink, via the recursive collector at the canonical fuel. -/
def getOutputTreeDescendants (es : List Edge) : List String :=
  getDescListF es (es.length + 1) END_NODE_ID

/-- A node entry of an ELK layout request (`{id, width, height}`). -/
structure ElkChild where
  id : String
  width : ℚ
  height : ℚ
deriving DecidableEq, Repr

/-- An edge entry of an ELK layout request (`{id, sources, targets}`). -/
structure ElkEdge where
  id : String
  sources : List String
  targets : List String
deriving DecidableEq, Repr

/-- An ELK layout request; the constant `layoutOptions` block is omitted since
the delegate is abstract. -/
structure ElkGraph where
  id : String
  children : List ElkChild
  edges : List ElkEdge
deriving DecidableEq, Repr

/-- A node entry of an ELK layout response (`{id, x, y}`). -/
structure ElkOut where
  id : String
  x : ℚ
  y : ℚ
deriving DecidableEq, Repr

/-- The abstract asynchronous ELK delegate: it either resolves with per-node
coordinates or rejects. -/
def Delegate : Type := ElkGraph → Except Unit (List ElkOut)

/-- JS `layout.children?.find(n => n.id === i)`. -/
def elkFind : List ElkOut → String → Option ElkOut
  | [], _ => none
  | o :: os, i => if o.id = i then some o else elkFind os i

/-- Build an ELK request graph from nodes and edges: each node is sent with its
reserved subtree width and effective height (`calculateSubtreeWidths` followed
by the `children`/`edges` mapping in `layoutWithElk`). -/
def elkGraphOf (gid : String) (ns : List Node) (es : List Edge) : ElkGraph :=
  { id := gid
    children := ns.map (fun n => ⟨n.id, elkWidthOf es n.id, heightD n⟩)
    edges := es.map (fun e => ⟨e.id, [e.source], [e.target]⟩) }

/-- Ids of the sink ("output") subtree, as `layoutWithElk` computes them. -/
def outIdsOf (es : List Edge) : List String := getOutputTreeDescendants es

/-- Nodes of the sink subtree (sink excluded), in input order. -/
def outputTreeNodesOf (ns : List Node) (es : List Edge) : List Node :=
  ns.filter (fun n => decide (n.id ∈ outIdsOf es))

/-- Main-tree nodes: everything that is neither the sink nor in its subtree. -/
def mainTreeNodesOf (ns : List Node) (es : List Edge) : List Node :=
  ns.filter (fun n => decide (¬ n.id = END_NODE_ID ∧ n.id ∉ outIdsOf es))

/-- Main-tree edges: edges not entering the sink and not touching its subtree. -/
def mainTreeEdgesOf (es : List Edge) : List Edge :=
  es.filter (fun e =>
    decide (¬ e.target = END_NODE_ID ∧ e.source ∉ outIdsOf es ∧ e.target ∉ outIdsOf es))

/-- Edge list used for the sink-subtree layout: the sink's outgoing edges
followed by the subtree-internal edges (the source rebuilds exactly this
concatenation at each of its five uses). -/
def outputEdgeSetOf (es : List Edge) : List Edge :=
  es.filter (fun e => decide (e.source = END_NODE_ID)) ++
    es.filter (fun e => decide (e.source ∈ outIdsOf es ∧ e.target ∈ outIdsOf es))

/-- Position base nodes from an ELK response, adding `off` to each coordinate
(missing response entries default to `(0, 0)`) and forcing the rendered width
to `DEFAULT_NODE_WIDTH`. With `off = ⟨0, 0⟩` this is the main-tree placement;
with the sink offset it is the sink-subtree placement. -/
def placeNodes (base : List Node) (layout : List ElkOut) (off : Pos) : List Node :=
  base.map (fun n =>
    match elkFind layout n.id with
    | some o => { n with position := ⟨o.x + off.x, o.y + off.y⟩,
                         width := some DEFAULT_NODE_WIDTH }
    | none => { n with position := ⟨0 + off.x, 0 + off.y⟩,
                       width := some DEFAULT_NODE_WIDTH })

/-- The four corrective passes in their fixed order: align, center, skew
correction, distance constraint. -/
def applyPasses (es : List Edge) (ns : List Node) : List Node :=
  constrainChildrenToParent
    (centerInputNodeForSkewedGraph
      (centerParentsOverChildren (alignSiblingsAtTop ns es) es) es) es

/-- The ELK request for the main tree. -/
def mainGraphOf (ns : List Node) (es : List Edge) : ElkGraph :=
  elkGraphOf "main-root" (mainTreeNodesOf ns es) (mainTreeEdgesOf es)

/-- Final main-tree nodes given the delegate's response. -/
def mainFinal (ns : List Node) (es : List Edge) (layout : List ElkOut) : List Node :=
  applyPasses (mainTreeEdgesOf es) (placeNodes (mainTreeNodesOf ns es) layout ⟨0, 0⟩)

/-- Bounding box of the final main-tree nodes, with the source's fallback
`{minX: 0, maxX: DEFAULT_NODE_WIDTH, maxY: 0}` for an empty list. -/
def mainBoundsMinX (fm : List Node) : ℚ :=
  if fm = [] then 0 else minOf (fm.map (fun n => n.position.x))

/-- Right edge of the main-tree bounding box. -/
def mainBoundsMaxX (fm : List Node) : ℚ :=
  if fm = [] then DEFAULT_NODE_WIDTH
  else maxOf (fm.map (fun n => n.position.x + widthD n))

/-- Bottom edge of the main-tree bounding box. -/
def mainBoundsMaxY (fm : List Node) : ℚ :=
  if fm = [] then 0 else maxOf (fm.map (fun n => n.position.y + heightD n))

/-- The fixed sink position computed from the final main-tree bounding box:
horizontally centred under the box, `VERTICAL_SPACING` below it. `endW` is
`endNode?.width || DEFAULT_NODE_WIDTH`. -/
def sinkFixedPos (fm : List Node) (endW : ℚ) : Pos :=
  ⟨(mainBoundsMinX fm + mainBoundsMaxX fm) / 2 - endW / 2,
   mainBoundsMaxY fm + VERTICAL_SPACING⟩

/-- The sink-subtree node list handed to the second ELK call: the positioned
sink first, then the subtree nodes. -/
def outputWithEnd (pe : Node) (ns : List Node) (es : List Edge) : List Node :=
  pe :: outputTreeNodesOf ns es

/-- The ELK request for the sink subtree. -/
def outputGraphOf (pe : Node) (ns : List Node) (es : List Edge) : ElkGraph :=
  elkGraphOf "output-root" (outputWithEnd pe ns es) (outputEdgeSetOf es)

/-- The translation offset `(sink.x - elkSinkPos.x, sink.y - elkSinkPos.y)`,
with the `|| 0` default when the response lacks the sink. -/
def offsetOf (pe : Node) (layout : List ElkOut) : Pos :=
  match elkFind layout END_NODE_ID with
  | some o => ⟨pe.position.x - o.x, pe.position.y - o.y⟩
  | none => ⟨pe.position.x - 0, pe.position.y - 0⟩

/-- Final sink-subtree nodes given the delegate's response: translate the
sub-layout onto the fixed sink position, then run the same four passes with
the sink-subtree edge set. -/
def outputFinal (pe : Node) (ns : List Node) (es : List Edge)
    (layout : List ElkOut) : List Node :=
  applyPasses (outputEdgeSetOf es)
    (placeNodes (outputWithEnd pe ns es) layout (offsetOf pe layout))

/-- Effective width of the optional end node, `endNode?.width ||
DEFAULT_NODE_WIDTH`. -/
def endWOf (endNode : Option Node) : ℚ :=
  match endNode with
  | some en => widthD en
  | none => DEFAULT_NODE_WIDTH

/-- The body of `layoutWithElk` up to its `catch`: both delegate calls threaded
through `Except`. Mirrors the source's control flow: decompose the graph, lay
out and post-process the main tree, position the sink from the main-tree
bounding box, then (when the sink subtree is non-empty and the sink exists)
lay out, translate and post-process the sink subtree. -/
def layoutCore (d : Delegate) (ns : List Node) (es : List Edge) :
    Except Unit (List Node) := do
  let endNode := lookup ns END_NODE_ID
  let mainLayout ← d (mainGraphOf ns es)
  let fm := mainFinal ns es mainLayout
  let pe? := endNode.map (fun en => { en with position := sinkFixedPos fm (endWOf endNode) })
  let fo ← (match pe?, outputTreeNodesOf ns es with
    | some pe, _ :: _ => do
        let outLayout ← d (outputGraphOf pe ns es)
        pure (outputFinal pe ns es outLayout)
    | _, _ => pure ([] : List Node))
  match fo, pe? with
  | _ :: _, _ => pure (fm ++ fo)
  | [], some pe => pure (fm ++ [pe])
  | [], none => pure fm

/-- Source `layoutWithElk` including its `catch`: any delegate rejection is
recovered by returning the input nodes unchanged. -/
def layoutWithElk (d : Delegate) (ns : List Node) (es : List Edge) : List Node :=
  match layoutCore d ns es with
  | Except.ok r => r
  | Except.error _ => ns

/-- A two-node structural cycle, the smallest input on which the source's
width recursion fails to terminate. -/
def cyclicEdges : List Edge := [⟨"e1", "a", "b"⟩, ⟨"e2", "b", "a"⟩]

/-- A concrete fork: one root with two leaf children (witness graph). -/
def forkEdges : List Edge := [⟨"x", "r", "a"⟩, ⟨"y", "r", "b"⟩]

/-- Concrete chain `p -> c -> d` whose delegate positions leave both children
too far below their parents. -/
def gapNodes : List Node :=
  [⟨"p", ⟨0, 0⟩, some 500, some 100⟩,
   ⟨"c", ⟨0, 1000⟩, some 500, some 100⟩,
   ⟨"d", ⟨0, 1160⟩, some 500, some 100⟩]

/-- The chain's edges listed child-edge first: the order that breaks the
distance bound. -/
def gapEdges : List Edge := [⟨"cd", "c", "d"⟩, ⟨"pc", "p", "c"⟩]

/-- The same edges listed ancestors first: the order the bound survives. -/
def gapEdgesOrdered : List Edge := [⟨"pc", "p", "c"⟩, ⟨"cd", "c", "d"⟩]

/-- Concrete sibling group: parent `p` with two children at different heights
(witness graph for the alignment pass). -/
def sibNodes : List Node :=
  [⟨"p", ⟨0, 0⟩, some 500, some 300⟩,
   ⟨"a", ⟨10, 30⟩, some 500, some 300⟩,
   ⟨"b", ⟨60, 20⟩, some 500, some 300⟩]

/-- Edges of the sibling-group witness graph. -/
def sibEdges : List Edge := [⟨"pa", "p", "a"⟩, ⟨"pb", "p", "b"⟩]

/-- One forward step along an edge (used to state reachability). -/
def StepRel (es : List Edge) (a b : String) : Prop :=
  ∃ e ∈ es, e.source = a ∧ e.target = b

/-- Reachability in one or more forward steps: the mathematical "descendant"
relation the skew-correction claim quantifies over. -/
def ReachPlus (es : List Edge) : String → String → Prop :=
  Relation.TransGen (StepRel es)

/-- Concrete skewed chain `root -> a -> b`: `b` is a descendant that is not a
direct child (witness graph for the skew-correction pass). -/
def skewNs : List Node :=
  [⟨"root", ⟨0, 0⟩, some 500, some 300⟩,
   ⟨"a", ⟨100, 400⟩, some 500, some 300⟩,
   ⟨"b", ⟨300, 800⟩, some 500, some 300⟩]

/-- Edges of the skewed-chain witness graph. -/
def skewEs : List Edge := [⟨"ra", "root", "a"⟩, ⟨"ab", "a", "b"⟩]

/-- The full descendant set of `root` in the skewed-chain witness graph. -/
def skewDs : List Node :=
  [⟨"a", ⟨100, 400⟩, some 500, some 300⟩,
   ⟨"b", ⟨300, 800⟩, some 500, some 300⟩]

/-- Scenario A of the spec: one root of height `h` and the sink, joined by a
single edge (the app's initial graph, with the root height left symbolic). -/
def scenNs (h : ℚ) : List Node :=
  [⟨"root", ⟨0, 0⟩, some 500, some h⟩,
   ⟨"end-node", ⟨0, 0⟩, some 500, some 300⟩]

/-- Scenario A's single edge. -/
def scenEs : List Edge := [⟨"root-to-end", "root", "end-node"⟩]

/-- The positioned sink node (`positionedEndNode` in the source): the input
end node moved to the fixed position computed from the final main tree. -/
def positionedEnd (ns : List Node) (es : List Edge) (L1 : List ElkOut) (en : Node) : Node :=
  { en with position := sinkFixedPos (mainFinal ns es L1) (widthD en) }

/-- Counterexample graph for the sink-subtree claim: a root, the sink, and one
sink-subtree child `a`. -/
def cexNs : List Node :=
  [⟨"root", ⟨0, 0⟩, some 500, some 300⟩,
   ⟨"end-node", ⟨0, 0⟩, some 500, some 300⟩,
   ⟨"a", ⟨0, 0⟩, some 500, some 300⟩]

/-- Edges of the counterexample graph: the root terminates at the sink, and
the sink has one subtree child. -/
def cexEs : List Edge := [⟨"e1", "root", "end-node"⟩, ⟨"e2", "end-node", "a"⟩]

/-- A delegate for the counterexample: it answers the main request with the
root at the origin, and the sink-subtree request with the sink at the origin
and `a` off to the right — a perfectly legal ELK answer in which the sink is
not centred over its child. -/
def cexD : Delegate := fun g =>
  if g.id = "main-root" then Except.ok [⟨"root", 0, 0⟩]
  else Except.ok [⟨"end-node", 0, 0⟩, ⟨"a", 100, 400⟩]

/-- A three-node chain root → end-node → a whose input widths are 777, absent
and 10 — none equal to `DEFAULT_NODE_WIDTH` — so that width forcing by the
pipeline is observable on every node. -/
def wNs : List Node :=
  [⟨"root", ⟨0, 0⟩, some 777, some 300⟩,
   ⟨"end-node", ⟨0, 0⟩, none, some 250⟩,
   ⟨"a", ⟨0, 0⟩, some 10, some 300⟩]

def wEs : List Edge := [⟨"w1", "root", "end-node"⟩, ⟨"w2", "end-node", "a"⟩]

def wD : Delegate := fun g =>
  if g.id = "main-root" then Except.ok [⟨"root", 0, 0⟩]
  else Except.ok [⟨"end-node", 0, 0⟩, ⟨"a", 100, 400⟩]

/-- The pipeline's output on `wD`/`wNs`/`wEs`: every width is 500. -/
def wRes : List Node :=
  [⟨"root", ⟨0, 0⟩, some 500, some 300⟩,
   ⟨"end-node", ⟨100, 400⟩, some 500, some 250⟩,
   ⟨"a", ⟨100, 700⟩, some 500, some 300⟩]

/-! END OF DEFINITIONS -/

/-! Lemmas about `minOf` and `maxOf`. -/

theorem foldlMin_le_init : ∀ (l : List ℚ) (a : ℚ), l.foldl min a ≤ a := by
  intro l
  induction l with
  | nil => simp
  | cons b bs ih => intro a; simpa using le_trans (ih (min a b)) (min_le_left a b)

theorem foldlMin_mem : ∀ (l : List ℚ) (a : ℚ), l.foldl min a = a ∨ l.foldl min a ∈ l := by
  intro l
  induction l with
  | nil => simp
  | cons b bs ih =>
    intro a
    rcases ih (min a b) with h | h
    · rcases le_total a b with hb | hb
      · rw [List.foldl_cons, h, min_eq_left hb]; left; rfl
      · rw [List.foldl_cons, h, min_eq_right hb]; right; exact List.mem_cons_self _ _
    · right; exact List.mem_cons_of_mem _ h

theorem foldlMin_le_mem : ∀ (l : List ℚ) (a x : ℚ), x ∈ l → l.foldl min a ≤ x := by
  intro l
  induction l with
  | nil => intro a x hx; simp at hx
  | cons b bs ih =>
    intro a x hx
    rcases List.mem_cons.mp hx with rfl | hx
    · exact le_trans (foldlMin_le_init bs (min a x)) (min_le_right a x)
    · exact ih (min a b) x hx

theorem minOf_mem (l : List ℚ) (h : l ≠ []) : minOf l ∈ l := by
  match l with
  | x :: xs =>
    rcases foldlMin_mem xs x with h' | h'
    · rw [minOf, h']; exact List.mem_cons_self _ _
    · exact List.mem_cons_of_mem _ h'

theorem minOf_le (l : List ℚ) (x : ℚ) (hx : x ∈ l) : minOf l ≤ x := by
  match l with
  | y :: ys =>
    rcases List.mem_cons.mp hx with rfl | hx
    · exact foldlMin_le_init ys x
    · exact foldlMin_le_mem ys y x hx

theorem foldlMax_init_le : ∀ (l : List ℚ) (a : ℚ), a ≤ l.foldl max a := by
  intro l
  induction l with
  | nil => simp
  | cons b bs ih => intro a; simpa using le_trans (le_max_left a b) (ih (max a b))

theorem foldlMax_mem : ∀ (l : List ℚ) (a : ℚ), l.foldl max a = a ∨ l.foldl max a ∈ l := by
  intro l
  induction l with
  | nil => simp
  | cons b bs ih =>
    intro a
    rcases ih (max a b) with h | h
    · rcases le_total a b with hb | hb
      · rw [List.foldl_cons, h, max_eq_right hb]; right; exact List.mem_cons_self _ _
      · rw [List.foldl_cons, h, max_eq_left hb]; left; rfl
    · right; exact List.mem_cons_of_mem _ h

theorem foldlMax_mem_le : ∀ (l : List ℚ) (a x : ℚ), x ∈ l → x ≤ l.foldl max a := by
  intro l
  induction l with
  | nil => intro a x hx; simp at hx
  | cons b bs ih =>
    intro a x hx
    rcases List.mem_cons.mp hx with rfl | hx
    · exact le_trans (le_max_right a x) (foldlMax_init_le bs (max a x))
    · exact ih (max a b) x hx

theorem maxOf_mem (l : List ℚ) (h : l ≠ []) : maxOf l ∈ l := by
  match l with
  | x :: xs =>
    rcases foldlMax_mem xs x with h' | h'
    · rw [maxOf, h']; exact List.mem_cons_self _ _
    · exact List.mem_cons_of_mem _ h'

theorem maxOf_ge (l : List ℚ) (x : ℚ) (hx : x ∈ l) : x ≤ maxOf l := by
  match l with
  | y :: ys =>
    rcases List.mem_cons.mp hx with rfl | hx
    · exact foldlMax_init_le ys x
    · exact foldlMax_mem_le ys y x hx

/-- Lists with the same members have the same `minOf` (duplicates and order are
irrelevant to `Math.min`). -/
theorem minOf_congr (l l' : List ℚ) (hl : l ≠ []) (hl' : l' ≠ [])
    (h : ∀ x, x ∈ l ↔ x ∈ l') : minOf l = minOf l' := by
  apply le_antisymm
  · exact minOf_le l _ ((h _).mpr (minOf_mem l' hl'))
  · exact minOf_le l' _ ((h _).mp (minOf_mem l hl))

/-- Lists with the same members have the same `maxOf`. -/
theorem maxOf_congr (l l' : List ℚ) (hl : l ≠ []) (hl' : l' ≠ [])
    (h : ∀ x, x ∈ l ↔ x ∈ l') : maxOf l = maxOf l' := by
  apply le_antisymm
  · exact maxOf_ge l' _ ((h _).mp (maxOf_mem l hl))
  · exact maxOf_ge l _ ((h _).mpr (maxOf_mem l' hl'))

/-! Basic lemmas about `lookup` and `updateFirst`. -/

/-- Layout-invariant data of a node: id and declared size. -/
def nodePlan (n : Node) : String × Option ℚ × Option ℚ := (n.id, n.width, n.height)

/-- Ids of a node list, in order. -/
def idsOf (ns : List Node) : List String := ns.map (·.id)

theorem lookup_isSome_iff (ns : List Node) (i : String) :
    (lookup ns i).isSome ↔ i ∈ idsOf ns := by
  induction ns with
  | nil => simp [lookup, idsOf]
  | cons n ns ih =>
    by_cases h : n.id = i
    · simp [lookup, h, idsOf]
    · simp only [lookup, if_neg h, idsOf, List.map_cons, List.mem_cons]
      rw [ih]
      constructor
      · intro hm; right; exact hm
      · rintro (hm | hm)
        · exact absurd hm.symm h
        · exact hm

theorem lookup_eq_some (ns : List Node) (i : String) (n : Node)
    (h : lookup ns i = some n) : n ∈ ns ∧ n.id = i := by
  induction ns with
  | nil => simp [lookup] at h
  | cons m ms ih =>
    by_cases hm : m.id = i
    · rw [lookup, if_pos hm] at h
      obtain rfl : m = n := by injection h
      exact ⟨List.mem_cons_self _ _, hm⟩
    · rw [lookup, if_neg hm] at h
      obtain ⟨h1, h2⟩ := ih h
      exact ⟨List.mem_cons_of_mem _ h1, h2⟩

theorem lookup_of_nodup_mem (ns : List Node) (n : Node)
    (hd : (idsOf ns).Nodup) (hn : n ∈ ns) : lookup ns n.id = some n := by
  induction ns with
  | nil => simp at hn
  | cons m ms ih =>
    rw [idsOf, List.map_cons, List.nodup_cons] at hd
    rcases List.mem_cons.mp hn with rfl | hn
    · rw [lookup, if_pos rfl]
    · have hne : ¬ m.id = n.id := by
        intro h
        exact hd.1 (h ▸ List.mem_map_of_mem (·.id) hn)
      rw [lookup, if_neg hne]
      exact ih hd.2 hn

theorem lookup_updateFirst_of_ne (i j : String) (f : Node → Node)
    (hf : ∀ n, (f n).id = n.id) (ns : List Node) (hij : ¬ j = i) :
    lookup (updateFirst i f ns) j = lookup ns j := by
  induction ns with
  | nil => rfl
  | cons n ns ih =>
    by_cases h : n.id = i
    · have : ¬ (f n).id = j := by rw [hf n, h]; intro hc; exact hij hc.symm
      rw [updateFirst, if_pos h, lookup, if_neg this, lookup,
        if_neg (by rw [h]; intro hc; exact hij hc.symm)]
    · by_cases hj : n.id = j
      · rw [updateFirst, if_neg h, lookup, if_pos hj, lookup, if_pos hj]
      · rw [updateFirst, if_neg h, lookup, if_neg hj, lookup, if_neg hj, ih]

theorem lookup_updateFirst_self (i : String) (f : Node → Node)
    (hf : ∀ n, (f n).id = n.id) (ns : List Node) :
    lookup (updateFirst i f ns) i = (lookup ns i).map f := by
  induction ns with
  | nil => rfl
  | cons n ns ih =>
    by_cases h : n.id = i
    · rw [updateFirst, if_pos h, lookup, if_pos (by rw [hf n]; exact h), lookup, if_pos h,
        Option.map_some']
    · rw [updateFirst, if_neg h, lookup, if_neg h, lookup, if_neg h, ih]

theorem plan_updateFirst (i : String) (f : Node → Node)
    (hf : ∀ n, nodePlan (f n) = nodePlan n) (ns : List Node) :
    (updateFirst i f ns).map nodePlan = ns.map nodePlan := by
  induction ns with
  | nil => rfl
  | cons n ns ih =>
    by_cases h : n.id = i
    · rw [updateFirst, if_pos h, List.map_cons, List.map_cons, hf n]
    · rw [updateFirst, if_neg h, List.map_cons, List.map_cons, ih]

theorem setX_id (v : ℚ) (n : Node) : (setX v n).id = n.id := rfl

theorem setY_id (v : ℚ) (n : Node) : (setY v n).id = n.id := rfl

theorem setX_plan (v : ℚ) (n : Node) : nodePlan (setX v n) = nodePlan n := rfl

theorem setY_plan (v : ℚ) (n : Node) : nodePlan (setY v n) = nodePlan n := rfl

theorem setX_y (v : ℚ) (n : Node) : (setX v n).position.y = n.position.y := rfl

theorem setY_x (v : ℚ) (n : Node) : (setY v n).position.x = n.position.x := rfl

theorem idsOf_of_plan {ns ns' : List Node}
    (h : ns.map nodePlan = ns'.map nodePlan) : idsOf ns = idsOf ns' := by
  have := congrArg (List.map Prod.fst) h
  simpa [idsOf, nodePlan, Function.comp] using this

/-! Frame lemmas: what each pass can and cannot touch. -/

/-- The x coordinate stored for id `i`, if present. -/
def xAt (ns : List Node) (i : String) : Option ℚ := (lookup ns i).map (fun n => n.position.x)

/-- The y coordinate stored for id `i`, if present. -/
def yAt (ns : List Node) (i : String) : Option ℚ := (lookup ns i).map (fun n => n.position.y)

theorem xAt_updateFirst_setY (j : String) (v : ℚ) (ns : List Node) (i : String) :
    xAt (updateFirst j (setY v) ns) i = xAt ns i := by
  by_cases h : i = j
  · subst h
    rw [xAt, xAt, lookup_updateFirst_self _ _ (setY_id v) ns]
    cases lookup ns i <;> simp [setY]
  · rw [xAt, xAt, lookup_updateFirst_of_ne _ _ _ (setY_id v) ns h]

theorem yAt_updateFirst_setX (j : String) (ns : List Node) (i : String)
    (f : Node → Node) (hf : ∀ n, ∃ w, f n = setX w n) :
    yAt (updateFirst j f ns) i = yAt ns i := by
  have hid : ∀ n, (f n).id = n.id := by
    intro n; obtain ⟨w, hw⟩ := hf n; rw [hw, setX_id]
  by_cases h : i = j
  · subst h
    rw [yAt, yAt, lookup_updateFirst_self _ _ hid ns]
    cases lookup ns i with
    | none => rfl
    | some n =>
      obtain ⟨w, hw⟩ := hf n
      simp [hw, setX]
  · rw [yAt, yAt, lookup_updateFirst_of_ne _ _ _ hid ns h]

theorem constrainStep_plan (ns : List Node) (e : Edge) :
    (constrainStep ns e).map nodePlan = ns.map nodePlan := by
  rw [constrainStep]
  cases lookup ns e.source with
  | none => rfl
  | some p =>
    cases lookup ns e.target with
    | none => rfl
    | some c =>
      dsimp only
      split
      · exact plan_updateFirst _ _ (setY_plan _) ns
      · rfl

theorem constrainStep_lookup_ne (ns : List Node) (e : Edge) (i : String)
    (h : ¬ i = e.target) : lookup (constrainStep ns e) i = lookup ns i := by
  rw [constrainStep]
  cases lookup ns e.source with
  | none => rfl
  | some p =>
    cases lookup ns e.target with
    | none => rfl
    | some c =>
      dsimp only
      split
      · exact lookup_updateFirst_of_ne _ _ _ (setY_id _) ns h
      · rfl

theorem constrainFold_plan (L : List Edge) (ns : List Node) :
    (L.foldl constrainStep ns).map nodePlan = ns.map nodePlan := by
  induction L generalizing ns with
  | nil => rfl
  | cons e L ih => rw [List.foldl_cons, ih, constrainStep_plan]

theorem constrainFold_lookup_ne (L : List Edge) (ns : List Node) (i : String)
    (h : ∀ e ∈ L, ¬ i = e.target) :
    lookup (L.foldl constrainStep ns) i = lookup ns i := by
  induction L generalizing ns with
  | nil => rfl
  | cons e L ih =>
    rw [List.foldl_cons, ih _ (fun e' he' => h e' (List.mem_cons_of_mem _ he')),
      constrainStep_lookup_ne _ _ _ (h e (List.mem_cons_self _ _))]

theorem alignFold_plan (ms : List Node) (v : ℚ) :
    ∀ ns : List Node,
      (ms.foldl (fun acc c => updateFirst c.id (setY v) acc) ns).map nodePlan
        = ns.map nodePlan := by
  induction ms with
  | nil => intro ns; rfl
  | cons c cs ih =>
    intro ns
    rw [List.foldl_cons, ih, plan_updateFirst _ _ (setY_plan _)]

theorem alignFold_lookup_ne (ms : List Node) (v : ℚ) :
    ∀ (ns : List Node) (i : String), (∀ c ∈ ms, ¬ i = c.id) →
      lookup (ms.foldl (fun acc c => updateFirst c.id (setY v) acc) ns) i = lookup ns i := by
  induction ms with
  | nil => intro ns i _; rfl
  | cons c cs ih =>
    intro ns i h
    rw [List.foldl_cons, ih _ _ (fun c' hc' => h c' (List.mem_cons_of_mem _ hc')),
      lookup_updateFirst_of_ne _ _ _ (setY_id _) ns (h c (List.mem_cons_self _ _))]

theorem alignFold_xAt (ms : List Node) (v : ℚ) :
    ∀ (ns : List Node) (i : String),
      xAt (ms.foldl (fun acc c => updateFirst c.id (setY v) acc) ns) i = xAt ns i := by
  induction ms with
  | nil => intro ns i; rfl
  | cons c cs ih =>
    intro ns i
    rw [List.foldl_cons, ih, xAt_updateFirst_setY]

theorem alignGroup_plan (ns : List Node) (mids : List String) :
    (alignGroup ns mids).map nodePlan = ns.map nodePlan := by
  rw [alignGroup]
  split
  · dsimp only
    split
    · exact alignFold_plan _ _ ns
    · rfl
  · rfl

theorem alignGroup_lookup_ne (ns : List Node) (mids : List String) (i : String)
    (h : i ∉ mids) : lookup (alignGroup ns mids) i = lookup ns i := by
  rw [alignGroup]
  split
  · dsimp only
    split
    · refine alignFold_lookup_ne _ _ ns i ?_
      intro c hc hci
      obtain ⟨m, hm, hcm⟩ := List.mem_filterMap.mp hc
      rw [hci, (lookup_eq_some ns m c hcm).2] at h
      exact h hm
    · rfl
  · rfl

theorem alignGroup_xAt (ns : List Node) (mids : List String) (i : String) :
    xAt (alignGroup ns mids) i = xAt ns i := by
  rw [alignGroup]
  split
  · dsimp only
    split
    · exact alignFold_xAt _ _ ns i
    · rfl
  · rfl

theorem alignKeysFold_plan (ks : List String) (es : List Edge) :
    ∀ ns : List Node,
      (ks.foldl (fun acc k => alignGroup acc (childrenOf es k)) ns).map nodePlan
        = ns.map nodePlan := by
  induction ks with
  | nil => intro ns; rfl
  | cons k ks ih => intro ns; rw [List.foldl_cons, ih, alignGroup_plan]

theorem alignKeysFold_lookup_ne (ks : List String) (es : List Edge) :
    ∀ (ns : List Node) (i : String), (∀ k ∈ ks, i ∉ childrenOf es k) →
      lookup (ks.foldl (fun acc k => alignGroup acc (childrenOf es k)) ns) i = lookup ns i := by
  induction ks with
  | nil => intro ns i _; rfl
  | cons k ks ih =>
    intro ns i h
    rw [List.foldl_cons, ih _ _ (fun k' hk' => h k' (List.mem_cons_of_mem _ hk')),
      alignGroup_lookup_ne _ _ _ (h k (List.mem_cons_self _ _))]

theorem alignKeysFold_xAt (ks : List String) (es : List Edge) :
    ∀ (ns : List Node) (i : String),
      xAt (ks.foldl (fun acc k => alignGroup acc (childrenOf es k)) ns) i = xAt ns i := by
  induction ks with
  | nil => intro ns i; rfl
  | cons k ks ih => intro ns i; rw [List.foldl_cons, ih, alignGroup_xAt]

theorem alignSiblingsAtTop_plan (ns : List Node) (es : List Edge) :
    (alignSiblingsAtTop ns es).map nodePlan = ns.map nodePlan := by
  rw [alignSiblingsAtTop]
  split
  · rfl
  · exact alignKeysFold_plan _ es ns

theorem alignSiblingsAtTop_lookup_ne (ns : List Node) (es : List Edge) (i : String)
    (h : ∀ e ∈ es, ¬ i = e.target) :
    lookup (alignSiblingsAtTop ns es) i = lookup ns i := by
  rw [alignSiblingsAtTop]
  split
  · rfl
  · refine alignKeysFold_lookup_ne _ es ns i ?_
    intro k _ hik
    obtain ⟨e, he, rfl⟩ := by
      simpa [childrenOf, List.mem_filter] using hik
    exact h e he.1 rfl

theorem alignSiblingsAtTop_xAt (ns : List Node) (es : List Edge) (i : String) :
    xAt (alignSiblingsAtTop ns es) i = xAt ns i := by
  rw [alignSiblingsAtTop]
  split
  · rfl
  · exact alignKeysFold_xAt _ es ns i

theorem centerStep_plan (es : List Edge) (ns : List Node) (pid : String) :
    (centerStep es ns pid).map nodePlan = ns.map nodePlan := by
  rw [centerStep]
  split
  · rfl
  · dsimp only
    split
    · rfl
    · exact plan_updateFirst _ _ (fun n => setX_plan _ n) ns

theorem centerStep_lookup_ne (es : List Edge) (ns : List Node) (pid i : String)
    (h : ¬ i = pid) : lookup (centerStep es ns pid) i = lookup ns i := by
  rw [centerStep]
  split
  · rfl
  · dsimp only
    split
    · rfl
    · exact lookup_updateFirst_of_ne _ _ _ (fun n => setX_id _ n) ns h

theorem centerStep_yAt (es : List Edge) (ns : List Node) (pid i : String) :
    yAt (centerStep es ns pid) i = yAt ns i := by
  rw [centerStep]
  split
  · rfl
  · dsimp only
    split
    · rfl
    · exact yAt_updateFirst_setX _ ns i _ (fun n => ⟨_, rfl⟩)

theorem centerFold_plan (L : List String) (es : List Edge) :
    ∀ ns : List Node,
      (L.foldl (centerStep es) ns).map nodePlan = ns.map nodePlan := by
  induction L with
  | nil => intro ns; rfl
  | cons p L ih => intro ns; rw [List.foldl_cons, ih, centerStep_plan]

theorem centerFold_lookup_ne (L : List String) (es : List Edge) :
    ∀ (ns : List Node) (i : String), i ∉ L →
      lookup (L.foldl (centerStep es) ns) i = lookup ns i := by
  induction L with
  | nil => intro ns i _; rfl
  | cons p L ih =>
    intro ns i h
    rw [List.foldl_cons, ih _ _ (fun hi => h (List.mem_cons_of_mem _ hi)),
      centerStep_lookup_ne _ _ _ _ (fun hip => h (by rw [hip]; exact List.mem_cons_self _ _))]

theorem centerFold_yAt (L : List String) (es : List Edge) :
    ∀ (ns : List Node) (i : String), yAt (L.foldl (centerStep es) ns) i = yAt ns i := by
  induction L with
  | nil => intro ns i; rfl
  | cons p L ih => intro ns i; rw [List.foldl_cons, ih, centerStep_yAt]

theorem centerParentsOverChildren_plan (ns : List Node) (es : List Edge) :
    (centerParentsOverChildren ns es).map nodePlan = ns.map nodePlan := by
  rw [centerParentsOverChildren]; exact centerFold_plan _ es ns

theorem centerParentsOverChildren_yAt (ns : List Node) (es : List Edge) (i : String) :
    yAt (centerParentsOverChildren ns es) i = yAt ns i := by
  rw [centerParentsOverChildren]; exact centerFold_yAt _ es ns i

theorem skewOne_plan (es : List Edge) (ns : List Node) (root : Node) :
    (skewOne es ns root).map nodePlan = ns.map nodePlan := by
  rw [skewOne]
  split
  · rfl
  · exact plan_updateFirst _ _ (setX_plan _) ns

theorem skewOne_lookup_ne (es : List Edge) (ns : List Node) (root : Node) (i : String)
    (h : ¬ i = root.id) : lookup (skewOne es ns root) i = lookup ns i := by
  rw [skewOne]
  split
  · rfl
  · exact lookup_updateFirst_of_ne _ _ _ (setX_id _) ns h

theorem skewOne_yAt (es : List Edge) (ns : List Node) (root : Node) (i : String) :
    yAt (skewOne es ns root) i = yAt ns i := by
  rw [skewOne]
  split
  · rfl
  · exact yAt_updateFirst_setX _ ns i _ (fun n => ⟨_, rfl⟩)

theorem skewFold_plan (L : List Node) (es : List Edge) :
    ∀ ns : List Node, (L.foldl (skewOne es) ns).map nodePlan = ns.map nodePlan := by
  induction L with
  | nil => intro ns; rfl
  | cons r L ih => intro ns; rw [List.foldl_cons, ih, skewOne_plan]

theorem skewFold_lookup_ne (L : List Node) (es : List Edge) :
    ∀ (ns : List Node) (i : String), (∀ r ∈ L, ¬ i = r.id) →
      lookup (L.foldl (skewOne es) ns) i = lookup ns i := by
  induction L with
  | nil => intro ns i _; rfl
  | cons r L ih =>
    intro ns i h
    rw [List.foldl_cons, ih _ _ (fun r' hr' => h r' (List.mem_cons_of_mem _ hr')),
      skewOne_lookup_ne _ _ _ _ (h r (List.mem_cons_self _ _))]

theorem skewFold_yAt (L : List Node) (es : List Edge) :
    ∀ (ns : List Node) (i : String), yAt (L.foldl (skewOne es) ns) i = yAt ns i := by
  induction L with
  | nil => intro ns i; rfl
  | cons r L ih => intro ns i; rw [List.foldl_cons, ih, skewOne_yAt]

theorem centerInputNodeForSkewedGraph_plan (ns : List Node) (es : List Edge) :
    (centerInputNodeForSkewedGraph ns es).map nodePlan = ns.map nodePlan := by
  rw [centerInputNodeForSkewedGraph]
  split
  · rfl
  · exact skewFold_plan _ es ns

theorem centerInputNodeForSkewedGraph_yAt (ns : List Node) (es : List Edge) (i : String) :
    yAt (centerInputNodeForSkewedGraph ns es) i = yAt ns i := by
  rw [centerInputNodeForSkewedGraph]
  split
  · rfl
  · exact skewFold_yAt _ es ns i

theorem centerInputNodeForSkewedGraph_lookup_target (ns : List Node) (es : List Edge)
    (i : String) (h : (∃ e ∈ es, i = e.target) ∨ i = END_NODE_ID) :
    lookup (centerInputNodeForSkewedGraph ns es) i = lookup ns i := by
  rw [centerInputNodeForSkewedGraph]
  split
  · rfl
  · refine skewFold_lookup_ne _ es ns i ?_
    intro r hr hir
    rw [List.mem_filter] at hr
    have hr2 := of_decide_eq_true hr.2
    rcases h with ⟨e, he, hie⟩ | hie
    · exact hr2.1 (hir ▸ hie ▸ List.mem_map_of_mem (·.target) he)
    · exact hr2.2 (hir ▸ hie)

/-! Claim C2: cycle handling in the reserved-width computation. -/

/-- C2: the spec demands that a graph with a structural cycle fail with
`InvalidGraph` before the width recursion starts; the source has no such guard
and `calculateNodeSubtreeWidth` simply never terminates on a cycle. In the
fuelled model: on the two-node cycle the computation exhausts every finite
fuel (returns `none` for all fuel) instead of producing a value or an error,
which is the non-termination of the source's unguarded recursion. -/
theorem calculateNodeSubtreeWidth_diverges_on_cycle :
    ∀ fuel : Nat,
      calculateNodeSubtreeWidth (childrenOf cyclicEdges) fuel "a" = none ∧
      calculateNodeSubtreeWidth (childrenOf cyclicEdges) fuel "b" = none := by
  intro fuel
  induction fuel with
  | zero => exact ⟨rfl, rfl⟩
  | succ f ih =>
    have ha : childrenOf cyclicEdges "a" = ["b"] := by decide
    have hb : childrenOf cyclicEdges "b" = ["a"] := by decide
    constructor
    · simp only [calculateNodeSubtreeWidth, ha, mapO, ih.2]
      rfl
    · simp only [calculateNodeSubtreeWidth, hb, mapO, ih.1]
      rfl

/-! Claim C9: delegate failure is recovered at the pipeline boundary. -/

/-- C9: if the external layout delegate rejects, the failure is caught at the
pipeline boundary and the pipeline returns the input nodes unchanged — a
rejecting delegate makes `layoutCore` fail, and any `layoutCore` failure makes
`layoutWithElk` return its input node list as is. -/
theorem layoutWithElk_failure_returns_input :
    ∀ (d : Delegate) (ns : List Node) (es : List Edge),
      (∀ err, layoutCore d ns es = Except.error err → layoutWithElk d ns es = ns) ∧
      ((∀ g, d g = Except.error ()) → layoutCore d ns es = Except.error ()) := by
  intro d ns es
  constructor
  · intro err h
    rw [layoutWithElk, h]
  · intro hd
    rw [layoutCore]
    simp only [hd (mainGraphOf ns es)]
    rfl

/-- Witness for C9 at a concrete input: an always-rejecting delegate on the
initial two-node graph leaves the input positions untouched. -/
theorem layoutWithElk_failure_returns_input_witness :
    layoutWithElk (fun _ => Except.error ())
      [⟨"root", ⟨1, 2⟩, some 500, some 300⟩] [] = [⟨"root", ⟨1, 2⟩, some 500, some 300⟩] := by
  exact (layoutWithElk_failure_returns_input (fun _ => Except.error ()) _ []).1 ()
    ((layoutWithElk_failure_returns_input (fun _ => Except.error ()) _ []).2 (fun _ => rfl))

/-! Claim C8: bounds on the reserved subtree widths. -/

theorem mapO_congr {α β : Type} (f g : α → Option β) :
    ∀ (cs : List α) (ws : List β), (∀ c ∈ cs, ∀ w, f c = some w → g c = some w) →
      mapO f cs = some ws → mapO g cs = some ws := by
  intro cs
  induction cs with
  | nil => intro ws _ h; exact h
  | cons c cs ih =>
    intro ws hfg h
    rw [mapO] at h ⊢
    cases hfc : f c with
    | none => rw [hfc] at h; simp at h
    | some b =>
      rw [hfc] at h
      cases hrest : mapO f cs with
      | none => rw [hrest] at h; simp at h
      | some bs =>
        rw [hrest] at h
        rw [hfg c (List.mem_cons_self _ _) b hfc,
          ih bs (fun c' hc' => hfg c' (List.mem_cons_of_mem _ hc')) hrest]
        exact h

theorem mapO_isSome {α β : Type} (f : α → Option β) :
    ∀ (cs : List α) (ws : List β), mapO f cs = some ws →
      ∀ c ∈ cs, ∃ b, f c = some b := by
  intro cs
  induction cs with
  | nil => intro ws _ c hc; simp at hc
  | cons c cs ih =>
    intro ws h c' hc'
    rw [mapO] at h
    cases hfc : f c with
    | none => rw [hfc] at h; simp at h
    | some b =>
      rw [hfc] at h
      cases hrest : mapO f cs with
      | none => rw [hrest] at h; simp at h
      | some bs =>
        rcases List.mem_cons.mp hc' with rfl | hc'
        · exact ⟨b, hfc⟩
        · exact ih bs hrest c' hc'

theorem mapO_eq_map {α β : Type} (f : α → Option β) (d : β) :
    ∀ (cs : List α) (ws : List β), mapO f cs = some ws →
      ws = cs.map (fun c => (f c).getD d) := by
  intro cs
  induction cs with
  | nil => intro ws h; injection h; simp [*]
  | cons c cs ih =>
    intro ws h
    rw [mapO] at h
    cases hfc : f c with
    | none => rw [hfc] at h; simp at h
    | some b =>
      rw [hfc] at h
      cases hrest : mapO f cs with
      | none => rw [hrest] at h; simp at h
      | some bs =>
        rw [hrest] at h
        injection h with h
        rw [List.map_cons, ← ih bs hrest, hfc]
        exact h.symm

theorem calculateNodeSubtreeWidth_ge (cm : String → List String) :
    ∀ (fuel : Nat) (nid : String) (w : ℚ),
      calculateNodeSubtreeWidth cm fuel nid = some w → DEFAULT_NODE_WIDTH ≤ w := by
  intro fuel nid w h
  match fuel with
  | 0 => simp [calculateNodeSubtreeWidth] at h
  | fuel + 1 =>
    rw [calculateNodeSubtreeWidth] at h
    by_cases hc : cm nid = []
    · simp only [hc, if_pos] at h
      obtain rfl : DEFAULT_NODE_WIDTH = w := by injection h
      exact le_refl _
    · rw [if_neg hc] at h
      cases hm : mapO (calculateNodeSubtreeWidth cm fuel) (cm nid) with
      | none => rw [hm] at h; exact absurd h (by simp)
      | some ws =>
        rw [hm, Option.map_some'] at h
        obtain rfl : _ = w := by injection h
        exact le_max_left _ _

theorem calculateNodeSubtreeWidth_mono (cm : String → List String) :
    ∀ (f f' : Nat), f ≤ f' → ∀ (nid : String) (w : ℚ),
      calculateNodeSubtreeWidth cm f nid = some w →
      calculateNodeSubtreeWidth cm f' nid = some w := by
  intro f
  induction f with
  | zero => intro f' _ nid w h; simp [calculateNodeSubtreeWidth] at h
  | succ f ih =>
    intro f' hf nid w h
    obtain ⟨f'', rfl⟩ : ∃ f'', f' = f'' + 1 := ⟨f' - 1, by omega⟩
    have hf'' : f ≤ f'' := by omega
    rw [calculateNodeSubtreeWidth] at h ⊢
    by_cases hc : cm nid = []
    · rw [if_pos hc] at h ⊢; exact h
    · rw [if_neg hc] at h ⊢
      cases hm : mapO (calculateNodeSubtreeWidth cm f) (cm nid) with
      | none => rw [hm] at h; exact absurd h (by simp)
      | some ws =>
        rw [hm] at h
        rw [mapO_congr _ _ _ ws (fun c _ w' hw' => ih f'' hf'' c w' hw') hm]
        exact h

/-- C8: the reserved width of every node is at least `DEFAULT_NODE_WIDTH`
(500); and whenever the source's recursion terminates on the graph (modelled
as: the fuelled computation succeeds at the canonical fuel, which is the case
exactly on the acyclic inputs the claim quantifies over), the reserved width
of a node with children equals `max(500, sum(child widths) + 100 * (childCount
- 1))`, and hence dominates that sum-plus-spacing. -/
theorem reservedWidth_bounds :
    ∀ (es : List Edge) (nid : String),
      DEFAULT_NODE_WIDTH ≤ elkWidthOf es nid ∧
      ((calculateNodeSubtreeWidth (childrenOf es) (es.length + 1) nid).isSome →
        ¬ childrenOf es nid = [] →
        elkWidthOf es nid =
          max DEFAULT_NODE_WIDTH
            (((childrenOf es nid).map (elkWidthOf es)).sum +
              (((childrenOf es nid).length - 1 : ℕ) : ℚ) * VERTICAL_SPACING) ∧
        ((childrenOf es nid).map (elkWidthOf es)).sum +
            (((childrenOf es nid).length - 1 : ℕ) : ℚ) * VERTICAL_SPACING
          ≤ elkWidthOf es nid) := by
  intro es nid
  constructor
  · rw [elkWidthOf]
    cases h : calculateNodeSubtreeWidth (childrenOf es) (es.length + 1) nid with
    | none => rw [Option.getD_none]
    | some w =>
      rw [Option.getD_some]
      exact calculateNodeSubtreeWidth_ge _ _ _ _ h
  · intro hsome hc
    obtain ⟨w, hw⟩ := Option.isSome_iff_exists.mp hsome
    rw [calculateNodeSubtreeWidth, if_neg hc] at hw
    cases hm : mapO (calculateNodeSubtreeWidth (childrenOf es) es.length)
        (childrenOf es nid) with
    | none => rw [hm] at hw; exact absurd hw (by simp)
    | some ws =>
      have hws : ws = (childrenOf es nid).map (elkWidthOf es) := by
        rw [mapO_eq_map _ DEFAULT_NODE_WIDTH _ ws hm]
        refine List.map_congr_left ?_
        intro c hcmem
        obtain ⟨b, hb⟩ := mapO_isSome _ _ ws hm c hcmem
        rw [hb, Option.getD_some, elkWidthOf,
          calculateNodeSubtreeWidth_mono _ es.length (es.length + 1) (by omega) c b hb,
          Option.getD_some]
      have hval : elkWidthOf es nid =
          max DEFAULT_NODE_WIDTH
            (((childrenOf es nid).map (elkWidthOf es)).sum +
              (((childrenOf es nid).length - 1 : ℕ) : ℚ) * VERTICAL_SPACING) := by
        rw [elkWidthOf, calculateNodeSubtreeWidth, if_neg hc, hm, Option.map_some',
          Option.getD_some, hws]
      exact ⟨hval, hval ▸ le_max_right _ _⟩

/-- Witness for C8 on the concrete fork graph `forkEdges` (root `r`, leaves
`a`, `b`): the width computation succeeds, `r` has children, and the bounds
delivered by the theorem hold there. -/
theorem reservedWidth_bounds_witness :
    (calculateNodeSubtreeWidth (childrenOf forkEdges) (forkEdges.length + 1) "r").isSome ∧
    ¬ childrenOf forkEdges "r" = [] ∧
    (DEFAULT_NODE_WIDTH ≤ elkWidthOf forkEdges "r" ∧
      elkWidthOf forkEdges "r" =
        max DEFAULT_NODE_WIDTH
          (((childrenOf forkEdges "r").map (elkWidthOf forkEdges)).sum +
            (((childrenOf forkEdges "r").length - 1 : ℕ) : ℚ) * VERTICAL_SPACING) ∧
      ((childrenOf forkEdges "r").map (elkWidthOf forkEdges)).sum +
          (((childrenOf forkEdges "r").length - 1 : ℕ) : ℚ) * VERTICAL_SPACING
        ≤ elkWidthOf forkEdges "r") := by
  have hch : childrenOf forkEdges "r" = ["a", "b"] := by decide
  have hleaf_a : childrenOf forkEdges "a" = [] := by decide
  have hleaf_b : childrenOf forkEdges "b" = [] := by decide
  have hsome : (calculateNodeSubtreeWidth (childrenOf forkEdges)
      (forkEdges.length + 1) "r").isSome := by
    simp [calculateNodeSubtreeWidth, hch, hleaf_a, hleaf_b, mapO]
  have hc : ¬ childrenOf forkEdges "r" = [] := by rw [hch]; simp
  refine ⟨hsome, hc, (reservedWidth_bounds forkEdges "r").1,
    ((reservedWidth_bounds forkEdges "r").2 hsome hc).1,
    ((reservedWidth_bounds forkEdges "r").2 hsome hc).2⟩

/-! Claim C3: the parent-child distance bound. -/

/-- Counterexample to C3 as stated: on the forest-shaped chain `p -> c -> d`
(every node has at most one structural parent) with the edge list ordered
`[c -> d, p -> c]`, the pass first pulls `d` up against `c`'s old position and
then pulls `c` up against `p`, leaving the final gap on edge `c -> d` at 900,
far above the claimed bound of 50. The bound therefore does not hold
regardless of edge order. -/
theorem constrainChildrenToParent_gap_violated :
    lookup (constrainChildrenToParent gapNodes gapEdges) "c"
      = some ⟨"c", ⟨0, 150⟩, some 500, some 100⟩ ∧
    lookup (constrainChildrenToParent gapNodes gapEdges) "d"
      = some ⟨"d", ⟨0, 1150⟩, some 500, some 100⟩ ∧
    ¬ ((1150 : ℚ) - (150 + orD (some 100) DEFAULT_NODE_HEIGHT) ≤ NODE_SPACING) := by
  refine ⟨?_, ?_, ?_⟩ <;>
  · try simp [constrainChildrenToParent, constrainStep, gapNodes, gapEdges,
      lookup, updateFirst, heightD, orD, setY, NODE_SPACING, DEFAULT_NODE_HEIGHT]
    try norm_num
    try simp [lookup, updateFirst, setY]
    try norm_num
    try simp [lookup, updateFirst, setY]
    try norm_num

theorem constrainStep_establishes (ns : List Node) (e : Edge)
    (hst : ¬ e.target = e.source) :
    ∀ p c, lookup (constrainStep ns e) e.source = some p →
      lookup (constrainStep ns e) e.target = some c →
      c.position.y - (p.position.y + heightD p) ≤ NODE_SPACING := by
  intro p c hp hc
  cases h1 : lookup ns e.source with
  | none =>
    simp only [constrainStep, h1] at hp
    exact absurd hp (by simp)
  | some p0 =>
    cases h2 : lookup ns e.target with
    | none =>
      simp only [constrainStep, h1, h2] at hc
      exact absurd hc (by simp)
    | some c0 =>
      by_cases hgap : c0.position.y - (p0.position.y + heightD p0) > NODE_SPACING
      · simp only [constrainStep, h1, h2, if_pos hgap] at hp hc
        rw [lookup_updateFirst_of_ne _ _ _ (setY_id _) ns
            (fun hse : e.source = e.target => hst hse.symm), h1] at hp
        rw [lookup_updateFirst_self _ _ (setY_id _) ns, h2, Option.map_some'] at hc
        obtain rfl : p0 = p := by injection hp
        obtain rfl : setY (p0.position.y + heightD p0 + NODE_SPACING) c0 = c := by
          injection hc
        simp [setY]
      · simp only [constrainStep, h1, h2, if_neg hgap] at hp hc
        obtain rfl : p0 = p := by injection hp
        obtain rfl : c0 = c := by injection hc
        exact le_of_not_lt hgap

/-- C3 (amended): for a forest-shaped edge set *whose list order puts each
node's incoming edge before its outgoing edges* (ancestors first, no
self-loops), every structural edge satisfies the 50-unit gap bound after
DistanceConstraintPass. The counterexample above shows the original
order-independence cannot be kept: a child edge processed before its parent's
own incoming edge is re-broken when the parent is later pulled up. -/
theorem constrainChildrenToParent_gap_bound :
    ∀ (es : List Edge) (ns : List Node),
      (es.map (·.target)).Nodup →
      es.Pairwise (fun a b => ¬ b.target = a.source) →
      (∀ e ∈ es, ¬ e.target = e.source) →
      ∀ e ∈ es, ∀ p c,
        lookup (constrainChildrenToParent ns es) e.source = some p →
        lookup (constrainChildrenToParent ns es) e.target = some c →
        c.position.y - (p.position.y + heightD p) ≤ NODE_SPACING := by
  intro es
  induction es with
  | nil => intro ns _ _ _ e he; simp at he
  | cons e0 rest ih =>
    intro ns hnd hpw hself e he p c hp hc
    rw [List.map_cons, List.nodup_cons] at hnd
    rw [List.pairwise_cons] at hpw
    rw [constrainChildrenToParent, List.foldl_cons] at hp hc
    rcases List.mem_cons.mp he with rfl | he
    · have hsrc : lookup (rest.foldl constrainStep (constrainStep ns e)) e.source
          = lookup (constrainStep ns e) e.source :=
        constrainFold_lookup_ne rest _ _ (fun e' he' h => hpw.1 e' he' (h ▸ rfl))
      have htgt : lookup (rest.foldl constrainStep (constrainStep ns e)) e.target
          = lookup (constrainStep ns e) e.target :=
        constrainFold_lookup_ne rest _ _
          (fun e' he' h => hnd.1 (h ▸ List.mem_map_of_mem (·.target) he'))
      rw [hsrc] at hp
      rw [htgt] at hc
      exact constrainStep_establishes ns e (hself e (List.mem_cons_self _ _)) p c hp hc
    · exact ih (constrainStep ns e0) hnd.2 hpw.2
        (fun e' he' => hself e' (List.mem_cons_of_mem _ he')) e he p c hp hc

/-- Witness for the amended C3 on the ancestors-first ordering of the same
chain: the hypotheses hold and the bound follows for every edge. -/
theorem constrainChildrenToParent_gap_bound_witness :
    ((gapEdgesOrdered.map (·.target)).Nodup ∧
     gapEdgesOrdered.Pairwise (fun a b => ¬ b.target = a.source) ∧
     (∀ e ∈ gapEdgesOrdered, ¬ e.target = e.source)) ∧
    (∀ e ∈ gapEdgesOrdered, ∀ p c,
      lookup (constrainChildrenToParent gapNodes gapEdgesOrdered) e.source = some p →
      lookup (constrainChildrenToParent gapNodes gapEdgesOrdered) e.target = some c →
      c.position.y - (p.position.y + heightD p) ≤ NODE_SPACING) :=
  ⟨⟨by decide, by decide, by decide⟩,
   constrainChildrenToParent_gap_bound gapEdgesOrdered gapNodes
     (by decide) (by decide) (by decide)⟩

/-! Claim C6: the sibling alignment pass. -/

theorem filterMap_lookup_congr (mids : List String) (s ns : List Node)
    (h : ∀ t ∈ mids, lookup s t = lookup ns t) :
    mids.filterMap (lookup s) = mids.filterMap (lookup ns) := by
  induction mids with
  | nil => rfl
  | cons m ms ih =>
    rw [List.filterMap_cons, List.filterMap_cons, h m (List.mem_cons_self _ _),
      ih (fun t ht => h t (List.mem_cons_of_mem _ ht))]

theorem filterMap_lookup_length (mids : List String) (ns : List Node)
    (h : ∀ t ∈ mids, (lookup ns t).isSome) :
    (mids.filterMap (lookup ns)).length = mids.length := by
  induction mids with
  | nil => rfl
  | cons m ms ih =>
    obtain ⟨n, hn⟩ := Option.isSome_iff_exists.mp (h m (List.mem_cons_self _ _))
    rw [List.filterMap_cons, hn]
    simp [ih (fun t ht => h t (List.mem_cons_of_mem _ ht))]

theorem memNodes_id_mem (mids : List String) (ns : List Node) (c : Node)
    (hc : c ∈ mids.filterMap (lookup ns)) : c.id ∈ mids ∧ lookup ns c.id = some c := by
  obtain ⟨m, hm, hcm⟩ := List.mem_filterMap.mp hc
  have := (lookup_eq_some ns m c hcm).2
  exact ⟨this ▸ hm, this ▸ hcm⟩

theorem alignMemberFold_lookup (v : ℚ) :
    ∀ (ms : List Node) (s : List Node),
      (ms.map (·.id)).Nodup →
      (∀ c ∈ ms, lookup s c.id = some c) →
      ∀ (i : String),
        ((∀ c ∈ ms, ¬ i = c.id) →
          lookup (ms.foldl (fun acc c => updateFirst c.id (setY v) acc) s) i = lookup s i) ∧
        (∀ c ∈ ms, i = c.id →
          lookup (ms.foldl (fun acc c => updateFirst c.id (setY v) acc) s) i
            = some (setY v c)) := by
  intro ms
  induction ms with
  | nil => intro s _ _ i; exact ⟨fun _ => rfl, fun c hc => absurd hc (by simp)⟩
  | cons c0 ms ih =>
    intro s hnd hval i
    rw [List.map_cons, List.nodup_cons] at hnd
    have hval' : ∀ c ∈ ms, lookup (updateFirst c0.id (setY v) s) c.id = some c := by
      intro c hc
      rw [lookup_updateFirst_of_ne _ _ _ (setY_id _) s
        (fun hcc : c.id = c0.id => hnd.1 (hcc ▸ List.mem_map_of_mem (·.id) hc))]
      exact hval c (List.mem_cons_of_mem _ hc)
    constructor
    · intro hni
      rw [List.foldl_cons,
        (ih (updateFirst c0.id (setY v) s) hnd.2 hval' i).1
          (fun c hc => hni c (List.mem_cons_of_mem _ hc)),
        lookup_updateFirst_of_ne _ _ _ (setY_id _) s (hni c0 (List.mem_cons_self _ _))]
    · intro c hc hic
      rcases List.mem_cons.mp hc with rfl | hc
      · rw [List.foldl_cons,
          (ih (updateFirst c.id (setY v) s) hnd.2 hval' i).1
            (fun c' hc' hic' => hnd.1
              (by rw [hic.symm.trans hic']; exact List.mem_map_of_mem (·.id) hc')),
          hic, lookup_updateFirst_self _ _ (setY_id _) s, hval c (List.mem_cons_self _ _),
          Option.map_some']
      · rw [List.foldl_cons]
        exact (ih (updateFirst c0.id (setY v) s) hnd.2 hval' i).2 c hc hic

theorem alignGroup_of_short (ns : List Node) (mids : List String)
    (h : mids.length ≤ 1) : alignGroup ns mids = ns := by
  rw [alignGroup, if_neg (by omega)]

/-- Core induction for the alignment pass: processing a disjoint family of
groups sets each member of each large group to its group's original minimum y
and leaves everything else alone. -/
theorem alignKeysFold_spec (es : List Edge) (ns : List Node) :
    ∀ (ks : List String) (s : List Node),
      ks.Pairwise (fun k k' => ∀ t, t ∈ childrenOf es k → t ∉ childrenOf es k') →
      (∀ k ∈ ks, (childrenOf es k).Nodup) →
      (∀ k ∈ ks, ∀ t ∈ childrenOf es k, (lookup ns t).isSome) →
      (∀ k ∈ ks, ∀ t ∈ childrenOf es k, lookup s t = lookup ns t) →
      ∀ k ∈ ks, 1 < (childrenOf es k).length →
        ∀ t ∈ childrenOf es k, ∀ n, lookup ns t = some n →
          lookup (ks.foldl (fun acc k => alignGroup acc (childrenOf es k)) s) t
            = some (setY
                (minOf (((childrenOf es k).filterMap (lookup ns)).map
                  (fun m => m.position.y))) n) := by
  intro ks
  induction ks with
  | nil => intro s _ _ _ _ k hk; simp at hk
  | cons k0 ks ih =>
    intro s hdisj hmnd hpres hagree k hk hlen t ht n hn
    rw [List.pairwise_cons] at hdisj
    rw [List.foldl_cons]
    rcases List.mem_cons.mp hk with rfl | hk
    · -- our group is processed first; later groups never touch t
      have hgrp : lookup (alignGroup s (childrenOf es k)) t
          = some (setY
              (minOf (((childrenOf es k).filterMap (lookup ns)).map
                (fun m => m.position.y))) n) := by
        rw [alignGroup, if_pos hlen]
        have hfm : (childrenOf es k).filterMap (lookup s)
            = (childrenOf es k).filterMap (lookup ns) :=
          filterMap_lookup_congr _ s ns (hagree k (List.mem_cons_self _ _))
        have hflen : 1 < ((childrenOf es k).filterMap (lookup s)).length := by
          rw [hfm, filterMap_lookup_length _ _ (hpres k (List.mem_cons_self _ _))]
          exact hlen
        rw [if_pos hflen]
        dsimp only
        have hidnd : (((childrenOf es k).filterMap (lookup s)).map (·.id)).Nodup := by
          rw [hfm]
          -- member ids are exactly the present mids, a sublist of a nodup list
          have hsub : ((childrenOf es k).filterMap (lookup ns)).map (·.id)
              |>.Sublist (childrenOf es k) := by
            induction childrenOf es k with
            | nil => simp
            | cons m ms ihm =>
              rw [List.filterMap_cons]
              cases hm : lookup ns m with
              | none => simp only [List.map]; exact ihm.cons _
              | some c =>
                rw [List.map_cons, (lookup_eq_some ns m c hm).2]
                exact ihm.cons₂ _
          exact hsub.nodup (hmnd k (List.mem_cons_self _ _))
        have hvals : ∀ c ∈ (childrenOf es k).filterMap (lookup s),
            lookup s c.id = some c := by
          intro c hc
          rw [hfm] at hc
          obtain ⟨hcm, hcl⟩ := memNodes_id_mem _ ns c hc
          rw [hagree k (List.mem_cons_self _ _) c.id hcm]
          exact hcl
        have hmem : (setY (minOf (((childrenOf es k).filterMap (lookup s)).map
            (fun m => m.position.y))) n) = setY (minOf (((childrenOf es k).filterMap
            (lookup ns)).map (fun m => m.position.y))) n := by rw [hfm]
        have hnmem : n ∈ (childrenOf es k).filterMap (lookup s) := by
          rw [hfm]
          exact List.mem_filterMap.mpr ⟨t, ht, hn⟩
        have := (alignMemberFold_lookup
            (minOf (((childrenOf es k).filterMap (lookup s)).map (fun m => m.position.y)))
            ((childrenOf es k).filterMap (lookup s)) s hidnd hvals t).2 n hnmem
          ((lookup_eq_some ns t n hn).2.symm)
        rw [this, hmem]
      rw [alignKeysFold_lookup_ne ks es _ t
        (fun k' hk' htk' => (hdisj.1 k' hk' t ht) htk'), hgrp]
    · -- our group comes later: the head group is disjoint from it
      have hnt : t ∉ childrenOf es k0 := by
        intro htk0
        -- pairwise disjointness is directional from the head; use it on t
        exact (hdisj.1 k hk t htk0) ht
      refine ih (alignGroup s (childrenOf es k0)) hdisj.2
        (fun k' hk' => hmnd k' (List.mem_cons_of_mem _ hk'))
        (fun k' hk' => hpres k' (List.mem_cons_of_mem _ hk')) ?_ k hk hlen t ht n hn
      intro k' hk' t' ht'
      rw [alignGroup_lookup_ne s _ t' (fun ht0 => (hdisj.1 k' hk' t' ht0) ht')]
      exact hagree k' (List.mem_cons_of_mem _ hk') t' ht'

theorem mem_childrenOf (es : List Edge) (k t : String) :
    t ∈ childrenOf es k ↔ ∃ e ∈ es, e.source = k ∧ e.target = t := by
  simp [childrenOf, List.mem_filter]
  constructor
  · rintro ⟨e, ⟨he, hs⟩, ht⟩; exact ⟨e, he, hs, ht⟩
  · rintro ⟨e, he, hs, ht⟩; exact ⟨e, ⟨he, hs⟩, ht⟩

theorem childrenOf_nodup (es : List Edge) (k : String)
    (h : (es.map (·.target)).Nodup) : (childrenOf es k).Nodup := by
  have hsub : ((es.filter (fun e => decide (e.source = k))).map (·.target)).Sublist
      (es.map (·.target)) := List.Sublist.map _ (List.filter_sublist es)
  exact hsub.nodup h

theorem edge_unique_by_target (es : List Edge) (h : (es.map (·.target)).Nodup)
    (e e' : Edge) (he : e ∈ es) (he' : e' ∈ es) (ht : e.target = e'.target) :
    e = e' := List.inj_on_of_nodup_map h he he' ht

theorem childrenOf_disjoint (es : List Edge) (h : (es.map (·.target)).Nodup)
    (k k' : String) (hkk : ¬ k = k') (t : String)
    (htk : t ∈ childrenOf es k) (htk' : t ∈ childrenOf es k') : False := by
  obtain ⟨e, he, hs, ht⟩ := (mem_childrenOf es k t).mp htk
  obtain ⟨e', he', hs', ht'⟩ := (mem_childrenOf es k' t).mp htk'
  obtain rfl := edge_unique_by_target es h e e' he he' (ht.trans ht'.symm)
  exact hkk (hs.symm.trans hs')

theorem mem_sourceKeysAux (es : List Edge) :
    ∀ (ks : List String) (k : String),
      k ∈ es.foldl (fun ks e => if e.source ∈ ks then ks else ks ++ [e.source]) ks ↔
        k ∈ ks ∨ ∃ e ∈ es, e.source = k := by
  induction es with
  | nil => intro ks k; simp
  | cons e es ih =>
    intro ks k
    rw [List.foldl_cons]
    by_cases hs : e.source ∈ ks
    · rw [if_pos hs, ih]
      constructor
      · rintro (hk | hk)
        · exact Or.inl hk
        · exact Or.inr ⟨hk.choose, List.mem_cons_of_mem _ hk.choose_spec.1, hk.choose_spec.2⟩
      · rintro (hk | ⟨e', he', hk⟩)
        · exact Or.inl hk
        · rcases List.mem_cons.mp he' with rfl | he'
          · exact Or.inl (hk ▸ hs)
          · exact Or.inr ⟨e', he', hk⟩
    · rw [if_neg hs, ih]
      constructor
      · rintro (hk | hk)
        · rcases List.mem_append.mp hk with hk | hk
          · exact Or.inl hk
          · exact Or.inr ⟨e, List.mem_cons_self _ _, (List.mem_singleton.mp hk).symm⟩
        · exact Or.inr ⟨hk.choose, List.mem_cons_of_mem _ hk.choose_spec.1, hk.choose_spec.2⟩
      · rintro (hk | ⟨e', he', hk⟩)
        · exact Or.inl (List.mem_append.mpr (Or.inl hk))
        · rcases List.mem_cons.mp he' with rfl | he'
          · exact Or.inl (List.mem_append.mpr (Or.inr (List.mem_singleton.mpr hk.symm)))
          · exact Or.inr ⟨e', he', hk⟩

theorem mem_sourceKeys (es : List Edge) (k : String) :
    k ∈ sourceKeys es ↔ ∃ e ∈ es, e.source = k := by
  rw [sourceKeys, mem_sourceKeysAux]
  simp

theorem sourceKeys_nodup (es : List Edge) : (sourceKeys es).Nodup := by
  rw [sourceKeys]
  have : ∀ (ks : List String), ks.Nodup →
      (es.foldl (fun ks e => if e.source ∈ ks then ks else ks ++ [e.source]) ks).Nodup := by
    induction es with
    | nil => intro ks h; exact h
    | cons e es ih =>
      intro ks h
      rw [List.foldl_cons]
      by_cases hs : e.source ∈ ks
      · rw [if_pos hs]; exact ih ks h
      · rw [if_neg hs]
        refine ih _ ?_
        simp [List.nodup_append, h, hs]
  exact this [] List.nodup_nil

theorem alignKeysFold_skip (es : List Edge) :
    ∀ (ks : List String) (s : List Node) (t : String),
      (∀ k ∈ ks, t ∉ childrenOf es k ∨ (childrenOf es k).length ≤ 1) →
      lookup (ks.foldl (fun acc k => alignGroup acc (childrenOf es k)) s) t = lookup s t := by
  intro ks
  induction ks with
  | nil => intro s t _; rfl
  | cons k0 ks ih =>
    intro s t h
    rw [List.foldl_cons, ih _ t (fun k hk => h k (List.mem_cons_of_mem _ hk))]
    rcases h k0 (List.mem_cons_self _ _) with hnt | hshort
    · exact alignGroup_lookup_ne s _ t hnt
    · rw [alignGroup_of_short s _ hshort]

/-- C6: AlignmentPass sets, for every group of two or more direct children of
one structural parent (on a forest: distinct structural targets, every target
present), every member's final y via `setY` to the minimum y across the
group's original positions; a child that is its parent's only child keeps its
entry untouched; and no node's x coordinate is changed by the pass. -/
theorem alignSiblingsAtTop_spec :
    ∀ (ns : List Node) (es : List Edge),
      (es.map (·.target)).Nodup →
      (∀ e ∈ es, (lookup ns e.target).isSome) →
      (∀ k, 1 < (childrenOf es k).length →
        ∀ t ∈ childrenOf es k, ∀ n, lookup ns t = some n →
          lookup (alignSiblingsAtTop ns es) t
            = some (setY (minOf (((childrenOf es k).filterMap (lookup ns)).map
                (fun m => m.position.y))) n)) ∧
      (∀ i, xAt (alignSiblingsAtTop ns es) i = xAt ns i) ∧
      (∀ k, (childrenOf es k).length ≤ 1 →
        ∀ t ∈ childrenOf es k, lookup (alignSiblingsAtTop ns es) t = lookup ns t) := by
  intro ns es htnd hpres
  have hpres' : ∀ k, ∀ t ∈ childrenOf es k, (lookup ns t).isSome := by
    intro k t ht
    obtain ⟨e, he, _, htg⟩ := (mem_childrenOf es k t).mp ht
    exact htg ▸ hpres e he
  refine ⟨?_, alignSiblingsAtTop_xAt ns es, ?_⟩
  · intro k hlen t ht n hn
    rw [alignSiblingsAtTop]
    split
    · rename_i hns
      rw [hns] at hn
      simp [lookup] at hn
    · have hk : k ∈ sourceKeys es := by
        rw [mem_sourceKeys]
        have : t ∈ childrenOf es k := ht
        obtain ⟨e, he, hs, _⟩ := (mem_childrenOf es k t).mp this
        exact ⟨e, he, hs⟩
      exact alignKeysFold_spec es ns (sourceKeys es) ns
        ((sourceKeys_nodup es).imp
          (fun {a b} hab => fun t' hta htb => absurd (childrenOf_disjoint es htnd a b hab t' hta htb) not_false))
        (fun k' _ => childrenOf_nodup es k' htnd)
        (fun k' _ => hpres' k')
        (fun _ _ _ _ => rfl)
        k hk hlen t ht n hn
  · intro k hshort t ht
    rw [alignSiblingsAtTop]
    split
    · rfl
    · refine alignKeysFold_skip es _ ns t ?_
      intro k' hk'
      by_cases hkk : k' = k
      · subst hkk; exact Or.inr hshort
      · exact Or.inl (fun htk' => childrenOf_disjoint es htnd k' k hkk t htk' ht)

/-- Witness for C6 on the concrete sibling group (parent `p`, children `a` at
y = 30 and `b` at y = 20): the hypotheses hold and the alignment law follows. -/
theorem alignSiblingsAtTop_spec_witness :
    ((sibEdges.map (·.target)).Nodup ∧ (∀ e ∈ sibEdges, (lookup sibNodes e.target).isSome)) ∧
    ((∀ k, 1 < (childrenOf sibEdges k).length →
        ∀ t ∈ childrenOf sibEdges k, ∀ n, lookup sibNodes t = some n →
          lookup (alignSiblingsAtTop sibNodes sibEdges) t
            = some (setY (minOf (((childrenOf sibEdges k).filterMap (lookup sibNodes)).map
                (fun m => m.position.y))) n)) ∧
      (∀ i, xAt (alignSiblingsAtTop sibNodes sibEdges) i = xAt sibNodes i) ∧
      (∀ k, (childrenOf sibEdges k).length ≤ 1 →
        ∀ t ∈ childrenOf sibEdges k,
          lookup (alignSiblingsAtTop sibNodes sibEdges) t = lookup sibNodes t)) :=
  ⟨⟨by decide, by decide⟩, alignSiblingsAtTop_spec sibNodes sibEdges (by decide) (by decide)⟩

/-! Claim C4: the parent-centering pass. -/

theorem mem_insertByDepth (d : String → Nat) (k x : String) :
    ∀ l : List String, x ∈ insertByDepth d k l ↔ x = k ∨ x ∈ l := by
  intro l
  induction l with
  | nil => simp [insertByDepth]
  | cons a as ih =>
    rw [insertByDepth]
    split
    · simp
    · rw [List.mem_cons, List.mem_cons, ih]
      tauto

theorem insertByDepth_nodup (d : String → Nat) (k : String) :
    ∀ l : List String, k ∉ l → l.Nodup → (insertByDepth d k l).Nodup := by
  intro l
  induction l with
  | nil => intro _ _; simp [insertByDepth]
  | cons a as ih =>
    intro hk hnd
    rw [List.nodup_cons] at hnd
    rw [insertByDepth]
    split
    · exact List.nodup_cons.mpr ⟨hk, List.nodup_cons.mpr hnd⟩
    · refine List.nodup_cons.mpr ⟨?_, ih (fun h => hk (List.mem_cons_of_mem _ h)) hnd.2⟩
      rw [mem_insertByDepth]
      rintro (rfl | h)
      · exact hk (List.mem_cons_self _ _)
      · exact hnd.1 h

theorem insertByDepth_sorted (d : String → Nat) (k : String) :
    ∀ l : List String, l.Pairwise (fun a b => d a ≤ d b) →
      (insertByDepth d k l).Pairwise (fun a b => d a ≤ d b) := by
  intro l
  induction l with
  | nil => intro _; simp [insertByDepth]
  | cons a as ih =>
    intro hp
    rw [List.pairwise_cons] at hp
    rw [insertByDepth]
    split
    · rename_i hlt
      refine List.pairwise_cons.mpr ⟨?_, List.pairwise_cons.mpr hp⟩
      intro b hb
      rcases List.mem_cons.mp hb with rfl | hb
      · exact le_of_lt hlt
      · exact le_trans (le_of_lt hlt) (hp.1 b hb)
    · rename_i hge
      refine List.pairwise_cons.mpr ⟨?_, ih hp.2⟩
      intro b hb
      rcases (mem_insertByDepth d k b as).mp hb with rfl | hb
      · omega
      · exact hp.1 b hb

theorem mem_sortByDepth (d : String → Nat) (x : String) :
    ∀ l : List String, x ∈ sortByDepth d l ↔ x ∈ l := by
  intro l
  induction l with
  | nil => simp [sortByDepth]
  | cons a as ih => rw [sortByDepth, mem_insertByDepth, List.mem_cons, ih]

theorem sortByDepth_nodup (d : String → Nat) :
    ∀ l : List String, l.Nodup → (sortByDepth d l).Nodup := by
  intro l
  induction l with
  | nil => intro _; simp [sortByDepth]
  | cons a as ih =>
    intro hnd
    rw [List.nodup_cons] at hnd
    rw [sortByDepth]
    exact insertByDepth_nodup d a _ (fun h => hnd.1 ((mem_sortByDepth d a as).mp h)) (ih hnd.2)

theorem sortByDepth_sorted (d : String → Nat) :
    ∀ l : List String, (sortByDepth d l).Pairwise (fun a b => d a ≤ d b) := by
  intro l
  induction l with
  | nil => simp [sortByDepth]
  | cons a as ih => rw [sortByDepth]; exact insertByDepth_sorted d a _ ih

theorem widthD_setX (v : ℚ) (n : Node) : widthD (setX v n) = widthD n := rfl

/-- Core induction for the centering pass: processing parents in ascending
depth order gives every processed parent the midpoint x over its children's
final positions, because a parent's children sit strictly lower in depth and
are therefore never moved at or after the parent's own step. -/
theorem centerFold_spec (es : List Edge) :
    ∀ (L : List String) (s : List Node),
      L.Nodup →
      L.Pairwise (fun a b => depthOf es a ≤ depthOf es b) →
      (∀ pid ∈ L, ∀ c ∈ childrenOf es pid, depthOf es c < depthOf es pid) →
      ∀ pid ∈ L, ∀ p, lookup (L.foldl (centerStep es) s) pid = some p →
        ∀ _ : (childrenOf es pid).filterMap (lookup (L.foldl (centerStep es) s)) ≠ [],
          p.position.x + widthD p / 2
            = (minOf (((childrenOf es pid).filterMap (lookup (L.foldl (centerStep es) s))).map
                  (fun c => c.position.x))
               + maxOf (((childrenOf es pid).filterMap (lookup (L.foldl (centerStep es) s))).map
                  (fun c => c.position.x + widthD c))) / 2 := by
  intro L
  induction L with
  | nil => intro s _ _ _ pid hpid; simp at hpid
  | cons p0 L ih =>
    intro s hnd hsort hLc pid hpid p hp hne
    rw [List.nodup_cons] at hnd
    rw [List.pairwise_cons] at hsort
    rw [List.foldl_cons] at hp hne ⊢
    rcases List.mem_cons.mp hpid with rfl | hpid
    · -- our parent is processed first
      have hchild_frame : ∀ c ∈ childrenOf es pid,
          lookup (L.foldl (centerStep es) (centerStep es s pid)) c
            = lookup (centerStep es s pid) c := by
        intro c hc
        refine centerFold_lookup_ne L es _ c ?_
        intro hcl
        have h1 := hLc pid (List.mem_cons_self _ _) c hc
        have h2 := hsort.1 c hcl
        omega
      have hchild_step : ∀ c ∈ childrenOf es pid,
          lookup (centerStep es s pid) c = lookup s c := by
        intro c hc
        refine centerStep_lookup_ne es s pid c ?_
        intro hcp
        have := hLc pid (List.mem_cons_self _ _) c hc
        rw [hcp] at this
        omega
      have hcns : (childrenOf es pid).filterMap
            (lookup (L.foldl (centerStep es) (centerStep es s pid)))
          = (childrenOf es pid).filterMap (lookup s) := by
        refine filterMap_lookup_congr _ _ _ ?_
        intro t ht
        rw [hchild_frame t ht, hchild_step t ht]
      have hself : lookup (L.foldl (centerStep es) (centerStep es s pid)) pid
          = lookup (centerStep es s pid) pid :=
        centerFold_lookup_ne L es _ pid hnd.1
      rw [hcns] at hne ⊢
      rw [hself] at hp
      rw [centerStep] at hp
      by_cases hcid : childrenOf es pid = []
      · rw [hcid] at hne; simp at hne
      · rw [if_neg hcid] at hp
        dsimp only at hp
        rw [if_neg hne] at hp
        rw [lookup_updateFirst_self _ _ (fun n => setX_id _ n) s] at hp
        cases hs : lookup s pid with
        | none => rw [hs] at hp; exact absurd hp (by simp)
        | some par =>
          rw [hs, Option.map_some'] at hp
          obtain rfl : setX _ par = p := by injection hp
          rw [widthD_setX, setX]
          dsimp only
          ring
    · -- our parent comes later
      exact ih (centerStep es s p0) hnd.2 hsort.2
        (fun pid' hpid' => hLc pid' (List.mem_cons_of_mem _ hpid')) pid hpid p hp hne

/-- C4: after CenteringPass on a forest (distinct structural targets; the
depth of every edge's child strictly below its parent's, which is how the
ascending-depth processing order is realised and is what holds on every
forest), every parent found in the result with at least one present child is
horizontally centred over its direct children's final positions; no node's y
is changed; and nodes without children (in particular all children positions)
are untouched entirely. -/
theorem centerParentsOverChildren_spec :
    ∀ (ns : List Node) (es : List Edge),
      (es.map (·.target)).Nodup →
      (∀ e ∈ es, depthOf es e.target < depthOf es e.source) →
      (∀ pid p, lookup (centerParentsOverChildren ns es) pid = some p →
        (childrenOf es pid).filterMap (lookup (centerParentsOverChildren ns es)) ≠ [] →
        p.position.x + widthD p / 2
          = (minOf (((childrenOf es pid).filterMap
                (lookup (centerParentsOverChildren ns es))).map (fun c => c.position.x))
             + maxOf (((childrenOf es pid).filterMap
                (lookup (centerParentsOverChildren ns es))).map
                  (fun c => c.position.x + widthD c))) / 2) ∧
      (∀ i, yAt (centerParentsOverChildren ns es) i = yAt ns i) ∧
      (∀ i, childrenOf es i = [] →
        lookup (centerParentsOverChildren ns es) i = lookup ns i) := by
  intro ns es htnd hord
  refine ⟨?_, centerParentsOverChildren_yAt ns es, ?_⟩
  · intro pid p hp hne
    have hcid : ¬ childrenOf es pid = [] := by
      intro h
      rw [h] at hne
      exact hne rfl
    have hpid : pid ∈ sortByDepth (depthOf es) (sourceKeys es) := by
      rw [mem_sortByDepth, mem_sourceKeys]
      obtain ⟨t, ht⟩ := List.exists_mem_of_ne_nil _ hcid
      obtain ⟨e, he, hs, _⟩ := (mem_childrenOf es pid t).mp ht
      exact ⟨e, he, hs⟩
    rw [centerParentsOverChildren] at hp hne ⊢
    exact centerFold_spec es _ ns
      (sortByDepth_nodup _ _ (sourceKeys_nodup es))
      (sortByDepth_sorted _ _)
      (fun pid' _ c hc => by
        obtain ⟨e, he, hs, ht⟩ := (mem_childrenOf es pid' c).mp hc
        exact hs ▸ ht ▸ hord e he)
      pid hpid p hp hne
  · intro i hcid
    rw [centerParentsOverChildren]
    refine centerFold_lookup_ne _ es ns i ?_
    rw [mem_sortByDepth, mem_sourceKeys]
    rintro ⟨e, he, hs⟩
    have : e.target ∈ childrenOf es i :=
      (mem_childrenOf es i e.target).mpr ⟨e, he, hs, rfl⟩
    rw [hcid] at this
    simp at this

/-- Witness for C4 on the concrete sibling fork (parent `p` over children `a`
and `b`): the forest and depth-order hypotheses hold and the centering law
follows there. -/
theorem centerParentsOverChildren_spec_witness :
    ((sibEdges.map (·.target)).Nodup ∧
      (∀ e ∈ sibEdges, depthOf sibEdges e.target < depthOf sibEdges e.source)) ∧
    ((∀ pid p, lookup (centerParentsOverChildren sibNodes sibEdges) pid = some p →
        (childrenOf sibEdges pid).filterMap
            (lookup (centerParentsOverChildren sibNodes sibEdges)) ≠ [] →
        p.position.x + widthD p / 2
          = (minOf (((childrenOf sibEdges pid).filterMap
                (lookup (centerParentsOverChildren sibNodes sibEdges))).map
                  (fun c => c.position.x))
             + maxOf (((childrenOf sibEdges pid).filterMap
                (lookup (centerParentsOverChildren sibNodes sibEdges))).map
                  (fun c => c.position.x + widthD c))) / 2) ∧
      (∀ i, yAt (centerParentsOverChildren sibNodes sibEdges) i = yAt sibNodes i) ∧
      (∀ i, childrenOf sibEdges i = [] →
        lookup (centerParentsOverChildren sibNodes sibEdges) i = lookup sibNodes i)) :=
  ⟨⟨by decide, by decide⟩,
   centerParentsOverChildren_spec sibNodes sibEdges (by decide) (by decide)⟩

/-! Claim C5: the skew-correction pass centres each root over its entire
descendant set. -/

theorem reach_last_edge (es : List Edge) (a b : String) (h : ReachPlus es a b) :
    ∃ e ∈ es, e.target = b := by
  induction h with
  | single hs => obtain ⟨e, he, _, ht⟩ := hs; exact ⟨e, he, ht⟩
  | tail _ hs _ => obtain ⟨e, he, _, ht⟩ := hs; exact ⟨e, he, ht⟩

theorem filter_length_split {α : Type} (p q : α → Bool) :
    ∀ l : List α, (l.filter p).length
      = (l.filter (fun a => p a && q a)).length
        + (l.filter (fun a => p a && !q a)).length := by
  intro l
  induction l with
  | nil => rfl
  | cons a as ih =>
    simp only [List.filter_cons]
    cases hp : p a <;> cases hq : q a <;> simp [hp, hq, ih] <;> omega

theorem unvisited_split (es : List Edge) (visited : List String) (cur : String)
    (hcur : cur ∉ visited) :
    (es.filter (fun e => decide (¬ e.source ∈ visited))).length
      = (es.filter (fun e => decide (e.source = cur))).length
        + (es.filter (fun e => decide (¬ e.source ∈ cur :: visited))).length := by
  have hsplit := filter_length_split (fun e => decide (¬ e.source ∈ visited))
    (fun e => decide (e.source = cur)) es
  have e1 : es.filter (fun e => decide (¬ e.source ∈ visited) && decide (e.source = cur))
      = es.filter (fun e => decide (e.source = cur)) := by
    refine List.filter_congr ?_
    intro e _
    by_cases h : e.source = cur
    · simp [h, hcur]
    · simp [h]
  have e2 : es.filter (fun e => decide (¬ e.source ∈ visited) && !decide (e.source = cur))
      = es.filter (fun e => decide (¬ e.source ∈ cur :: visited)) := by
    refine List.filter_congr ?_
    intro e _
    by_cases h1 : e.source = cur <;> by_cases h2 : e.source ∈ visited <;>
      simp [h1, h2, List.mem_cons]
  rw [hsplit, e1, e2]

/-- Full characterisation of the source's stack-based descendant collector:
when every edge target resolves to a node, the collected nodes are exactly the
stored nodes of the ids reachable (in one or more steps) from the traversal
frontier — instantiated below with the singleton stack `[root]`. -/
theorem getDescNodes_spec (ns : List Node) (es : List Edge) (root : String)
    (hpres : ∀ e ∈ es, (lookup ns e.target).isSome) :
    ∀ (fuel : Nat) (visited stack : List String) (acc : List Node),
      stack.length + (es.filter (fun e => decide (¬ e.source ∈ visited))).length ≤ fuel →
      (∀ x ∈ visited, x = root ∨ ReachPlus es root x) →
      (∀ x ∈ stack, x = root ∨ ReachPlus es root x) →
      (∀ q ∈ acc, ∃ tid, ReachPlus es root tid ∧ lookup ns tid = some q) →
      (∀ x ∈ visited, ∀ e ∈ es, e.source = x →
        (∀ n, lookup ns e.target = some n → n ∈ acc) ∧
          (e.target ∈ visited ∨ e.target ∈ stack)) →
      (root ∈ visited ∨ root ∈ stack) →
      ∀ q, q ∈ getDescNodes ns es fuel visited stack acc ↔
        ∃ tid, ReachPlus es root tid ∧ lookup ns tid = some q := by
  have terminal : ∀ (visited : List String) (acc : List Node),
      (∀ q ∈ acc, ∃ tid, ReachPlus es root tid ∧ lookup ns tid = some q) →
      (∀ x ∈ visited, ∀ e ∈ es, e.source = x →
        (∀ n, lookup ns e.target = some n → n ∈ acc) ∧
          (e.target ∈ visited ∨ e.target ∈ ([] : List String))) →
      root ∈ visited →
      ∀ q, q ∈ acc ↔ ∃ tid, ReachPlus es root tid ∧ lookup ns tid = some q := by
    intro visited acc hacc hcl hroot q
    constructor
    · exact hacc q
    · rintro ⟨tid, hre, hlk⟩
      have key : ∀ tid', ReachPlus es root tid' →
          tid' ∈ visited ∧ (∀ n, lookup ns tid' = some n → n ∈ acc) := by
        intro tid' hre'
        induction hre' with
        | single hs =>
          obtain ⟨e, he, hsrc, htgt⟩ := hs
          have := hcl root hroot e he hsrc
          refine ⟨?_, htgt ▸ (this).1⟩
          rcases this.2 with h | h
          · exact htgt ▸ h
          · simp at h
        | tail _ hs ihmid =>
          obtain ⟨e, he, hsrc, htgt⟩ := hs
          rename_i mid _ _
          have := hcl mid (hsrc ▸ ihmid.1) e he hsrc
          refine ⟨?_, htgt ▸ (this).1⟩
          rcases this.2 with h | h
          · exact htgt ▸ h
          · simp at h
      exact (key tid hre).2 q hlk
  intro fuel
  induction fuel with
  | zero =>
    intro visited stack acc hfuel hvis hstk hacc hcl hroot q
    have hse : stack = [] := by
      cases stack with
      | nil => rfl
      | cons a as => simp at hfuel
    subst hse
    rw [getDescNodes]
    exact terminal visited acc hacc hcl (by rcases hroot with h | h; exacts [h, by simp at h]) q
  | succ fuel ih =>
    intro visited stack acc hfuel hvis hstk hacc hcl hroot q
    cases stack with
    | nil =>
      rw [getDescNodes]
      exact terminal visited acc hacc hcl (by rcases hroot with h | h; exacts [h, by simp at h]) q
    | cons cur rest =>
      rw [getDescNodes]
      by_cases hcv : cur ∈ visited
      · rw [if_pos hcv]
        refine ih visited rest acc ?_ hvis (fun x hx => hstk x (List.mem_cons_of_mem _ hx))
          hacc ?_ ?_ q
        · simp only [List.length_cons] at hfuel; omega
        · intro x hx e he hsrc
          obtain ⟨h1, h2⟩ := hcl x hx e he hsrc
          refine ⟨h1, ?_⟩
          rcases h2 with h | h
          · exact Or.inl h
          · rcases List.mem_cons.mp h with rfl | h
            · exact Or.inl hcv
            · exact Or.inr h
        · rcases hroot with h | h
          · exact Or.inl h
          · rcases List.mem_cons.mp h with rfl | h
            · exact Or.inl hcv
            · exact Or.inr h
      · rw [if_neg hcv]
        have hcur_reach : cur = root ∨ ReachPlus es root cur :=
          hstk cur (List.mem_cons_self _ _)
        have hchild_reach : ∀ e ∈ es, e.source = cur → ReachPlus es root e.target := by
          intro e he hsrc
          rcases hcur_reach with rfl | hre
          · exact Relation.TransGen.single ⟨e, he, hsrc, rfl⟩
          · exact Relation.TransGen.tail hre ⟨e, he, hsrc, rfl⟩
        refine ih (cur :: visited)
          ((((es.filter (fun e => decide (e.source = cur))).filterMap
              (fun e => lookup ns e.target)).map (·.id)).reverse ++ rest)
          (acc ++ (es.filter (fun e => decide (e.source = cur))).filterMap
              (fun e => lookup ns e.target)) ?_ ?_ ?_ ?_ ?_ ?_ q
        · -- fuel bound
          rw [List.length_append, List.length_reverse, List.length_map]
          have hsplit := unvisited_split es visited cur hcv
          have hfm : ((es.filter (fun e => decide (e.source = cur))).filterMap
              (fun e => lookup ns e.target)).length
              ≤ (es.filter (fun e => decide (e.source = cur))).length :=
            List.length_filterMap_le _ _
          simp only [List.length_cons] at hfuel
          omega
        · -- visited sound
          intro x hx
          rcases List.mem_cons.mp hx with rfl | hx
          · exact hcur_reach
          · exact hvis x hx
        · -- stack sound
          intro x hx
          rcases List.mem_append.mp hx with hx | hx
          · rw [List.mem_reverse] at hx
            obtain ⟨n, hn, rfl⟩ := List.mem_map.mp hx
            obtain ⟨e, he, hlk⟩ := List.mem_filterMap.mp hn
            have he' := List.mem_filter.mp he
            have hsrc := of_decide_eq_true he'.2
            right
            rw [(lookup_eq_some ns e.target n hlk).2]
            exact hchild_reach e he'.1 hsrc
          · exact hstk x (List.mem_cons_of_mem _ hx)
        · -- acc sound
          intro q' hq'
          rcases List.mem_append.mp hq' with hq' | hq'
          · exact hacc q' hq'
          · obtain ⟨e, he, hlk⟩ := List.mem_filterMap.mp hq'
            have he' := List.mem_filter.mp he
            exact ⟨e.target, hchild_reach e he'.1 (of_decide_eq_true he'.2), hlk⟩
        · -- closure
          intro x hx e he hsrc
          rcases List.mem_cons.mp hx with rfl | hx
          · constructor
            · intro n hn
              refine List.mem_append.mpr (Or.inr ?_)
              exact List.mem_filterMap.mpr
                ⟨e, List.mem_filter.mpr ⟨he, decide_eq_true hsrc⟩, hn⟩
            · obtain ⟨n, hn⟩ := Option.isSome_iff_exists.mp (hpres e he)
              right
              refine List.mem_append.mpr (Or.inl ?_)
              rw [List.mem_reverse]
              refine List.mem_map.mpr ⟨n, ?_, (lookup_eq_some ns e.target n hn).2⟩
              exact List.mem_filterMap.mpr
                ⟨e, List.mem_filter.mpr ⟨he, decide_eq_true hsrc⟩, hn⟩
          · obtain ⟨h1, h2⟩ := hcl x hx e he hsrc
            refine ⟨fun n hn => List.mem_append.mpr (Or.inl (h1 n hn)), ?_⟩
            rcases h2 with h | h
            · exact Or.inl (List.mem_cons_of_mem _ h)
            · rcases List.mem_cons.mp h with rfl | h
              · exact Or.inl (List.mem_cons_self _ _)
              · exact Or.inr (List.mem_append.mpr (Or.inr h))
        · -- root still tracked
          rcases hroot with h | h
          · exact Or.inl (List.mem_cons_of_mem _ h)
          · rcases List.mem_cons.mp h with rfl | h
            · exact Or.inl (List.mem_cons_self _ _)
            · exact Or.inr (List.mem_append.mpr (Or.inr h))

theorem descendantsOf_spec (ns : List Node) (es : List Edge) (root : String)
    (hpres : ∀ e ∈ es, (lookup ns e.target).isSome) :
    ∀ q, q ∈ descendantsOf ns es root ↔
      ∃ tid, ReachPlus es root tid ∧ lookup ns tid = some q := by
  intro q
  rw [descendantsOf]
  refine getDescNodes_spec ns es root hpres (es.length + 1) [] [root] [] ?_ ?_ ?_ ?_ ?_ ?_ q
  · have := List.length_filter_le (fun e => decide (¬ e.source ∈ ([] : List String))) es
    simp only [List.length_cons, List.length_nil]
    omega
  · intro x hx; simp at hx
  · intro x hx; left; exact List.mem_singleton.mp hx
  · intro q' hq'; simp at hq'
  · intro x hx; simp at hx
  · right; exact List.mem_singleton.mpr rfl

/-- Core induction for the skew-correction pass: each root in the processed
list ends up centred over the bounding box of its full descendant set (the
descendants themselves, having incoming edges, are never roots and never
move). -/
theorem skewRootsFold_spec (ns : List Node) (es : List Edge)
    (hids : (idsOf ns).Nodup)
    (hpres : ∀ e ∈ es, (lookup ns e.target).isSome) :
    ∀ (R : List Node) (s : List Node),
      (R.map (·.id)).Nodup →
      (∀ r ∈ R, ∀ e ∈ es, ¬ e.target = r.id) →
      (∀ r ∈ R, lookup ns r.id = some r) →
      (∀ i, (∃ e ∈ es, e.target = i) → lookup s i = lookup ns i) →
      (∀ r ∈ R, lookup s r.id = lookup ns r.id) →
      ∀ root ∈ R, ∀ ds : List Node,
        (∀ n ∈ ds, n ∈ ns ∧ ReachPlus es root.id n.id) →
        (∀ n ∈ ns, ReachPlus es root.id n.id → n ∈ ds) →
        ds ≠ [] →
        lookup (R.foldl (skewOne es) s) root.id
          = some (setX ((minOf (ds.map (fun n => n.position.x))
              + maxOf (ds.map (fun n => n.position.x + widthD n))) / 2
              - widthD root / 2) root) := by
  intro R
  induction R with
  | nil => intro s _ _ _ _ _ root hroot; simp at hroot
  | cons r0 R ih =>
    intro s hnd hnoin hval hagree hprist root hroot ds hds1 hds2 hdsne
    rw [List.map_cons, List.nodup_cons] at hnd
    rw [List.foldl_cons]
    have hagree_s' : ∀ i, (∃ e ∈ es, e.target = i) →
        lookup (skewOne es s r0) i = lookup ns i := by
      intro i hi
      rw [skewOne_lookup_ne es s r0 i ?_]
      · exact hagree i hi
      · rintro rfl
        obtain ⟨e, he, ht⟩ := hi
        exact hnoin r0 (List.mem_cons_self _ _) e he ht
    rcases List.mem_cons.mp hroot with rfl | hroot
    · -- our root is processed first
      have hpres_s : ∀ e ∈ es, (lookup s e.target).isSome := by
        intro e he
        rw [hagree e.target ⟨e, he, rfl⟩]
        exact hpres e he
      have hdesc := descendantsOf_spec s es root.id hpres_s
      have hmem_iff : ∀ q, q ∈ descendantsOf s es root.id ↔ q ∈ ds := by
        intro q
        rw [hdesc q]
        constructor
        · rintro ⟨tid, hre, hlk⟩
          rw [hagree tid (reach_last_edge es root.id tid hre)] at hlk
          obtain ⟨hqns, hqid⟩ := lookup_eq_some ns tid q hlk
          exact hds2 q hqns (hqid ▸ hre)
        · intro hq
          obtain ⟨hqns, hre⟩ := hds1 q hq
          refine ⟨q.id, hre, ?_⟩
          rw [hagree q.id (reach_last_edge es root.id q.id hre)]
          exact lookup_of_nodup_mem ns q hids hqns
      have hdne : ¬ descendantsOf s es root.id = [] := by
        obtain ⟨n, hn⟩ := List.exists_mem_of_ne_nil ds hdsne
        exact List.ne_nil_of_mem ((hmem_iff n).mpr hn)
      have hmin : minOf ((descendantsOf s es root.id).map (fun n => n.position.x))
          = minOf (ds.map (fun n => n.position.x)) := by
        refine minOf_congr _ _ ?_ ?_ ?_
        · simpa using hdne
        · simpa using hdsne
        · intro v
          constructor
          · intro hv
            obtain ⟨n, hn, rfl⟩ := List.mem_map.mp hv
            exact List.mem_map_of_mem _ ((hmem_iff n).mp hn)
          · intro hv
            obtain ⟨n, hn, rfl⟩ := List.mem_map.mp hv
            exact List.mem_map_of_mem _ ((hmem_iff n).mpr hn)
      have hmax : maxOf ((descendantsOf s es root.id).map
            (fun n => n.position.x + widthD n))
          = maxOf (ds.map (fun n => n.position.x + widthD n)) := by
        refine maxOf_congr _ _ ?_ ?_ ?_
        · simpa using hdne
        · simpa using hdsne
        · intro v
          constructor
          · intro hv
            obtain ⟨n, hn, rfl⟩ := List.mem_map.mp hv
            exact List.mem_map_of_mem _ ((hmem_iff n).mp hn)
          · intro hv
            obtain ⟨n, hn, rfl⟩ := List.mem_map.mp hv
            exact List.mem_map_of_mem _ ((hmem_iff n).mpr hn)
      have hstep : lookup (skewOne es s root) root.id
          = some (setX ((minOf (ds.map (fun n => n.position.x))
              + maxOf (ds.map (fun n => n.position.x + widthD n))) / 2
              - widthD root / 2) root) := by
        rw [skewOne]
        dsimp only
        rw [if_neg hdne, lookup_updateFirst_self _ _ (setX_id _) s,
          hprist root (List.mem_cons_self _ _), hval root (List.mem_cons_self _ _),
          Option.map_some', hmin, hmax]
      rw [skewFold_lookup_ne R es _ root.id
        (fun r hr hid => hnd.1 (hid ▸ List.mem_map_of_mem (·.id) hr)), hstep]
    · -- our root comes later
      refine ih (skewOne es s r0) hnd.2
        (fun r hr => hnoin r (List.mem_cons_of_mem _ hr))
        (fun r hr => hval r (List.mem_cons_of_mem _ hr))
        hagree_s' ?_ root hroot ds hds1 hds2 hdsne
      intro r hr
      rw [skewOne_lookup_ne es s r0 r.id
        (fun hid => hnd.1 (hid ▸ List.mem_map_of_mem (·.id) hr))]
      exact hprist r (List.mem_cons_of_mem _ hr)

/-- C5: SkewCorrectionPass, for each root (no incoming structural edge, not
the sink) with at least one descendant, sets the root's x so that the root is
centred over the bounding box of its *entire* descendant set `ds` (every node
reachable forward from the root in one or more steps, not only direct
children), and leaves every descendant's stored node unchanged. -/
theorem centerInputNodeForSkewedGraph_spec :
    ∀ (ns : List Node) (es : List Edge) (root : Node) (ds : List Node),
      (idsOf ns).Nodup →
      (∀ e ∈ es, (lookup ns e.target).isSome) →
      root ∈ ns →
      (∀ e ∈ es, ¬ e.target = root.id) →
      ¬ root.id = END_NODE_ID →
      (∀ n ∈ ds, n ∈ ns ∧ ReachPlus es root.id n.id) →
      (∀ n ∈ ns, ReachPlus es root.id n.id → n ∈ ds) →
      ds ≠ [] →
      lookup (centerInputNodeForSkewedGraph ns es) root.id
        = some (setX ((minOf (ds.map (fun n => n.position.x))
            + maxOf (ds.map (fun n => n.position.x + widthD n))) / 2
            - widthD root / 2) root) ∧
      (∀ n ∈ ds, lookup (centerInputNodeForSkewedGraph ns es) n.id = some n) := by
  intro ns es root ds hids hpres hrm hnoin hnend hds1 hds2 hdsne
  have hrootR : root ∈ ns.filter
      (fun n => decide (n.id ∉ es.map (·.target) ∧ ¬ n.id = END_NODE_ID)) := by
    refine List.mem_filter.mpr ⟨hrm, decide_eq_true ⟨?_, hnend⟩⟩
    intro hmem
    obtain ⟨e, he, ht⟩ := List.mem_map.mp hmem
    exact hnoin e he ht
  have hRne : ¬ ns.filter
      (fun n => decide (n.id ∉ es.map (·.target) ∧ ¬ n.id = END_NODE_ID)) = [] :=
    List.ne_nil_of_mem hrootR
  have hRnd : ((ns.filter
      (fun n => decide (n.id ∉ es.map (·.target) ∧ ¬ n.id = END_NODE_ID))).map
        (·.id)).Nodup :=
    (List.Sublist.map _ (List.filter_sublist ns)).nodup hids
  have hRnoin : ∀ r ∈ ns.filter
      (fun n => decide (n.id ∉ es.map (·.target) ∧ ¬ n.id = END_NODE_ID)),
      ∀ e ∈ es, ¬ e.target = r.id := by
    intro r hr e he ht
    have := of_decide_eq_true (List.mem_filter.mp hr).2
    exact this.1 (ht ▸ List.mem_map_of_mem (·.target) he)
  have hpass : centerInputNodeForSkewedGraph ns es
      = (ns.filter (fun n => decide (n.id ∉ es.map (·.target) ∧ ¬ n.id = END_NODE_ID))).foldl
          (skewOne es) ns := by
    rw [centerInputNodeForSkewedGraph]
    rw [if_neg hRne]
  constructor
  · rw [hpass]
    exact skewRootsFold_spec ns es hids hpres _ ns hRnd hRnoin
      (fun r hr => lookup_of_nodup_mem ns r hids (List.mem_filter.mp hr).1)
      (fun _ _ => rfl) (fun _ _ => rfl) root hrootR ds hds1 hds2 hdsne
  · intro n hn
    rw [hpass]
    rw [skewFold_lookup_ne _ es ns n.id ?_]
    · exact lookup_of_nodup_mem ns n hids (hds1 n hn).1
    · intro r hr hid
      obtain ⟨e, he, ht⟩ := reach_last_edge es root.id n.id (hds1 n hn).2
      exact hRnoin r hr e he (hid ▸ ht)

/-- Witness for C5 on the skewed chain `root -> a -> b`: deep descendant `b`
participates in the bounding box, and the hypotheses (nodup ids, present
targets, root-ness, descendant-set characterisation) all hold concretely. -/
theorem centerInputNodeForSkewedGraph_spec_witness :
    ((idsOf skewNs).Nodup ∧
     (∀ e ∈ skewEs, (lookup skewNs e.target).isSome) ∧
     (⟨"root", ⟨0, 0⟩, some 500, some 300⟩ : Node) ∈ skewNs ∧
     (∀ e ∈ skewEs, ¬ e.target = "root") ∧
     ¬ ("root" : String) = END_NODE_ID ∧
     (∀ n ∈ skewDs, n ∈ skewNs ∧ ReachPlus skewEs "root" n.id) ∧
     (∀ n ∈ skewNs, ReachPlus skewEs "root" n.id → n ∈ skewDs) ∧
     skewDs ≠ []) ∧
    (lookup (centerInputNodeForSkewedGraph skewNs skewEs) "root"
        = some (setX ((minOf (skewDs.map (fun n => n.position.x))
            + maxOf (skewDs.map (fun n => n.position.x + widthD n))) / 2
            - widthD ⟨"root", ⟨0, 0⟩, some 500, some 300⟩ / 2)
            ⟨"root", ⟨0, 0⟩, some 500, some 300⟩) ∧
      (∀ n ∈ skewDs, lookup (centerInputNodeForSkewedGraph skewNs skewEs) n.id = some n)) := by
  have hreach_a : ReachPlus skewEs "root" "a" :=
    Relation.TransGen.single ⟨⟨"ra", "root", "a"⟩, List.mem_cons_self _ _, rfl, rfl⟩
  have hreach_b : ReachPlus skewEs "root" "b" :=
    Relation.TransGen.tail hreach_a
      ⟨⟨"ab", "a", "b"⟩, List.mem_cons_of_mem _ (List.mem_cons_self _ _), rfl, rfl⟩
  have hds1 : ∀ n ∈ skewDs, n ∈ skewNs ∧ ReachPlus skewEs "root" n.id := by
    intro n hn
    rcases List.mem_cons.mp hn with rfl | hn
    · exact ⟨List.mem_cons_of_mem _ (List.mem_cons_self _ _), hreach_a⟩
    · rcases List.mem_cons.mp hn with rfl | hn
      · exact ⟨List.mem_cons_of_mem _ (List.mem_cons_of_mem _ (List.mem_cons_self _ _)),
          hreach_b⟩
      · simp at hn
  have hds2 : ∀ n ∈ skewNs, ReachPlus skewEs "root" n.id → n ∈ skewDs := by
    intro n hn hre
    rcases List.mem_cons.mp hn with rfl | hn
    · obtain ⟨e, he, ht⟩ := reach_last_edge skewEs "root" _ hre
      rcases List.mem_cons.mp he with rfl | he
      · exact absurd ht (by decide)
      · rcases List.mem_cons.mp he with rfl | he
        · exact absurd ht (by decide)
        · simp at he
    · rcases List.mem_cons.mp hn with rfl | hn
      · exact List.mem_cons_self _ _
      · rcases List.mem_cons.mp hn with rfl | hn
        · exact List.mem_cons_of_mem _ (List.mem_cons_self _ _)
        · simp at hn
  have hmain := centerInputNodeForSkewedGraph_spec skewNs skewEs
    ⟨"root", ⟨0, 0⟩, some 500, some 300⟩ skewDs
    (by decide) (by decide)
    (List.mem_cons_self _ _) (by decide) (by decide) hds1 hds2 (by simp [skewDs])
  exact ⟨⟨by decide, by decide, List.mem_cons_self _ _, by decide, by decide, hds1, hds2,
    by simp [skewDs]⟩, hmain.1, hmain.2⟩

/-! Pipeline plumbing: length, plan and width facts, and an inversion
principle for successful `layoutCore` runs. -/

theorem placeNodes_length (base : List Node) (layout : List ElkOut) (off : Pos) :
    (placeNodes base layout off).length = base.length := by
  rw [placeNodes, List.length_map]

theorem placeNodes_width (base : List Node) (layout : List ElkOut) (off : Pos) :
    ∀ n ∈ placeNodes base layout off, n.width = some DEFAULT_NODE_WIDTH := by
  intro n hn
  obtain ⟨m, _, rfl⟩ := List.mem_map.mp hn
  cases elkFind layout m.id <;> rfl

theorem applyPasses_plan (es : List Edge) (ns : List Node) :
    (applyPasses es ns).map nodePlan = ns.map nodePlan := by
  rw [applyPasses, constrainChildrenToParent, constrainFold_plan,
    centerInputNodeForSkewedGraph_plan, centerParentsOverChildren_plan,
    alignSiblingsAtTop_plan]

theorem applyPasses_length (es : List Edge) (ns : List Node) :
    (applyPasses es ns).length = ns.length := by
  have := congrArg List.length (applyPasses_plan es ns)
  simpa using this

theorem width_of_plan {ns ns' : List Node}
    (h : ns.map nodePlan = ns'.map nodePlan)
    (hw : ∀ m ∈ ns', m.width = some DEFAULT_NODE_WIDTH) :
    ∀ n ∈ ns, n.width = some DEFAULT_NODE_WIDTH := by
  intro n hn
  have hmem : nodePlan n ∈ ns'.map nodePlan := h ▸ List.mem_map_of_mem nodePlan hn
  obtain ⟨m, hm, hpm⟩ := List.mem_map.mp hmem
  have hweq : m.width = n.width := congrArg (fun t => t.2.1) hpm
  rw [← hweq]
  exact hw m hm

theorem id_of_plan {ns ns' : List Node}
    (h : ns.map nodePlan = ns'.map nodePlan)
    (hw : ∀ m ∈ ns', ¬ m.id = END_NODE_ID) :
    ∀ n ∈ ns, ¬ n.id = END_NODE_ID := by
  intro n hn
  have hmem : nodePlan n ∈ ns'.map nodePlan := h ▸ List.mem_map_of_mem nodePlan hn
  obtain ⟨m, hm, hpm⟩ := List.mem_map.mp hmem
  have hideq : m.id = n.id := congrArg (fun t => t.1) hpm
  rw [← hideq]
  exact hw m hm

theorem outputFinal_ne_nil (pe : Node) (ns : List Node) (es : List Edge)
    (layout : List ElkOut) : outputFinal pe ns es layout ≠ [] := by
  intro h
  have := congrArg List.length h
  rw [outputFinal, applyPasses_length, placeNodes_length] at this
  simp [outputWithEnd] at this

/-- Inversion of a successful pipeline run: the delegate's main answer exists,
and the result is one of the three shapes of the source's final return. -/
theorem layoutCore_inv (d : Delegate) (ns : List Node) (es : List Edge)
    (r : List Node) (h : layoutCore d ns es = Except.ok r) :
    ∃ L1, d (mainGraphOf ns es) = Except.ok L1 ∧
      ((lookup ns END_NODE_ID = none ∧ r = mainFinal ns es L1) ∨
       (∃ en, lookup ns END_NODE_ID = some en ∧ outputTreeNodesOf ns es = [] ∧
         r = mainFinal ns es L1
           ++ [{ en with position := sinkFixedPos (mainFinal ns es L1) (widthD en) }]) ∨
       (∃ en L2, lookup ns END_NODE_ID = some en ∧ outputTreeNodesOf ns es ≠ [] ∧
         d (outputGraphOf
             { en with position := sinkFixedPos (mainFinal ns es L1) (widthD en) }
             ns es) = Except.ok L2 ∧
         r = mainFinal ns es L1
           ++ outputFinal
               { en with position := sinkFixedPos (mainFinal ns es L1) (widthD en) }
               ns es L2)) := by
  rw [layoutCore] at h
  cases hd1 : d (mainGraphOf ns es) with
  | error err =>
    rw [hd1] at h
    simp [Bind.bind, Except.bind] at h
  | ok L1 =>
    rw [hd1] at h
    refine ⟨L1, rfl, ?_⟩
    simp only [Bind.bind, Except.bind] at h
    cases hend : lookup ns END_NODE_ID with
    | none =>
      rw [hend] at h
      simp only [Option.map_none', pure, Except.pure] at h
      left
      exact ⟨rfl, (by injection h with h; exact h.symm)⟩
    | some en =>
      rw [hend] at h
      simp only [Option.map_some'] at h
      cases houtNs : outputTreeNodesOf ns es with
      | nil =>
        rw [houtNs] at h
        simp only [pure, Except.pure] at h
        right; left
        refine ⟨en, rfl, rfl, ?_⟩
        rw [endWOf] at h
        injection h with h
        exact h.symm
      | cons o os =>
        rw [houtNs] at h
        dsimp only at h
        cases hd2 : d (outputGraphOf
            { en with position := sinkFixedPos (mainFinal ns es L1) (endWOf (some en)) }
            ns es) with
        | error err =>
          rw [hd2] at h
          simp [Bind.bind, Except.bind] at h
        | ok L2 =>
          rw [hd2] at h
          simp only [Bind.bind, Except.bind, pure, Except.pure] at h
          rw [show endWOf (some en) = widthD en from rfl] at h
          right; right
          refine ⟨en, L2, rfl, by simp, ?_, ?_⟩
          · rw [endWOf] at hd2; exact hd2
          · cases hfo : outputFinal
                { en with position := sinkFixedPos (mainFinal ns es L1) (widthD en) }
                ns es L2 with
            | nil => exact absurd hfo (outputFinal_ne_nil _ _ _ _)
            | cons f fs =>
              rw [hfo] at h
              injection h with h
              exact h.symm

/-! Claim C10: rendered widths are forced to the default. -/

theorem mainFinal_width (ns : List Node) (es : List Edge) (L1 : List ElkOut) :
    ∀ n ∈ mainFinal ns es L1, n.width = some DEFAULT_NODE_WIDTH := by
  rw [mainFinal]
  exact width_of_plan (applyPasses_plan _ _) (placeNodes_width _ _ _)

theorem outputFinal_width (pe : Node) (ns : List Node) (es : List Edge)
    (L2 : List ElkOut) :
    ∀ n ∈ outputFinal pe ns es L2, n.width = some DEFAULT_NODE_WIDTH := by
  rw [outputFinal]
  exact width_of_plan (applyPasses_plan _ _) (placeNodes_width _ _ _)

/-- C10: in every successful pipeline run, every returned node other than
the sink carries width exactly `DEFAULT_NODE_WIDTH = 500` regardless of the
width supplied in the input (the input widths only feed the reserved widths
sent to the delegate); and when the sink subtree is non-empty every returned
node, the sink included, carries width 500. (When the sink subtree is empty
the sink keeps its input width — the claim's carve-out.) -/
theorem layoutWithElk_width_forced :
    ∀ (d : Delegate) (ns : List Node) (es : List Edge) (r : List Node),
      layoutCore d ns es = Except.ok r →
      (∀ n ∈ r, ¬ n.id = END_NODE_ID → n.width = some DEFAULT_NODE_WIDTH) ∧
      (outputTreeNodesOf ns es ≠ [] → ∀ n ∈ r, n.width = some DEFAULT_NODE_WIDTH) := by
  intro d ns es r h
  obtain ⟨L1, _, hcase⟩ := layoutCore_inv d ns es r h
  rcases hcase with ⟨_, rfl⟩ | ⟨en, hen, houtNs, rfl⟩ | ⟨en, L2, hen, houtNs, _, rfl⟩
  · exact ⟨fun n hn _ => mainFinal_width ns es L1 n hn,
      fun _ n hn => mainFinal_width ns es L1 n hn⟩
  · constructor
    · intro n hn hne
      rcases List.mem_append.mp hn with hn | hn
      · exact mainFinal_width ns es L1 n hn
      · rw [List.mem_singleton] at hn
        subst hn
        exact absurd (lookup_eq_some ns _ en hen).2 hne
    · intro hne
      exact absurd houtNs hne
  · have hwid : ∀ n ∈ mainFinal ns es L1
        ++ outputFinal { en with position := sinkFixedPos (mainFinal ns es L1) (widthD en) }
            ns es L2, n.width = some DEFAULT_NODE_WIDTH := by
      intro n hn
      rcases List.mem_append.mp hn with hn | hn
      · exact mainFinal_width ns es L1 n hn
      · exact outputFinal_width _ ns es L2 n hn
    exact ⟨fun n hn _ => hwid n hn, fun _ n hn => hwid n hn⟩

/-- Witness for C10: a concrete successful run on the three-node chain whose
input widths are 777, absent and 10. The run succeeds with the concrete result
`wRes`, its sink subtree is non-empty, and the theorem applied at this run
forces every returned node's width — the sink included — to 500, even though
no input width was 500; the root, concretely, is returned with width 500. -/
theorem layoutWithElk_width_forced_witness :
    layoutCore wD wNs wEs = Except.ok wRes ∧
    outputTreeNodesOf wNs wEs ≠ [] ∧
    (∀ n ∈ wRes, n.width = some DEFAULT_NODE_WIDTH) ∧
    (⟨"root", ⟨0, 0⟩, some 500, some 300⟩ : Node) ∈ wRes ∧
    ¬ ((777 : ℚ) = DEFAULT_NODE_WIDTH) := by
  have hrun : layoutCore wD wNs wEs = Except.ok wRes := by
    iterate 6
      try simp [layoutCore, wD, wNs, wEs, wRes, mainGraphOf, outputGraphOf,
        elkGraphOf, elkWidthOf, calculateNodeSubtreeWidth, mapO, childrenOf,
        getOutputTreeDescendants, getDescListF, outIdsOf, outputTreeNodesOf,
        mainTreeNodesOf, mainTreeEdgesOf, outputEdgeSetOf, outputWithEnd, placeNodes,
        elkFind, offsetOf, applyPasses, alignSiblingsAtTop, sourceKeys, alignGroup, lookup,
        updateFirst, minOf, maxOf, centerParentsOverChildren, sortByDepth, insertByDepth,
        depthOf, getTreeDepthF, centerStep, centerInputNodeForSkewedGraph, skewOne,
        descendantsOf, getDescNodes, constrainChildrenToParent, constrainStep, setX, setY,
        widthD, heightD, orD, mainFinal, outputFinal, sinkFixedPos, mainBoundsMinX,
        mainBoundsMaxX, mainBoundsMaxY, endWOf, DEFAULT_NODE_WIDTH, DEFAULT_NODE_HEIGHT,
        VERTICAL_SPACING, NODE_SPACING, END_NODE_ID, Bind.bind, Except.bind, pure,
        Except.pure]
      try norm_num
  have hout : outputTreeNodesOf wNs wEs ≠ [] := by
    simp [outputTreeNodesOf, outIdsOf, getOutputTreeDescendants, getDescListF,
      childrenOf, wNs, wEs, END_NODE_ID]
  refine ⟨hrun, hout, (layoutWithElk_width_forced wD wNs wEs wRes hrun).2 hout,
    List.mem_cons_self _ _, by norm_num [DEFAULT_NODE_WIDTH]⟩

/-! Claim C7: sink placement from the main-tree bounding box. -/

theorem skewOne_nil (ns : List Node) (r : Node) : skewOne [] ns r = ns := rfl

theorem foldl_skewOne_nil :
    ∀ (R ns : List Node), R.foldl (skewOne []) ns = ns := by
  intro R
  induction R with
  | nil => intro ns; rfl
  | cons r R ih => intro ns; rw [List.foldl_cons, skewOne_nil]; exact ih ns

theorem centerInputNodeForSkewedGraph_nil (ns : List Node) :
    centerInputNodeForSkewedGraph ns [] = ns := by
  rw [centerInputNodeForSkewedGraph]
  split
  · rfl
  · exact foldl_skewOne_nil _ ns

theorem applyPasses_nil (ns : List Node) : applyPasses [] ns = ns := by
  rw [applyPasses]
  have halign : alignSiblingsAtTop ns [] = ns := by
    rw [alignSiblingsAtTop]; split <;> rfl
  rw [halign, show centerParentsOverChildren ns [] = ns from rfl,
    centerInputNodeForSkewedGraph_nil]
  rfl

theorem layoutCore_no_subtree (d : Delegate) (ns : List Node) (es : List Edge)
    (en : Node) (L1 : List ElkOut)
    (hend : lookup ns END_NODE_ID = some en)
    (houtNs : outputTreeNodesOf ns es = [])
    (hd1 : d (mainGraphOf ns es) = Except.ok L1) :
    layoutWithElk d ns es = mainFinal ns es L1
      ++ [{ en with position := sinkFixedPos (mainFinal ns es L1) (widthD en) }] := by
  rw [layoutWithElk, layoutCore, hd1, hend, houtNs]
  simp only [Bind.bind, Except.bind, Option.map_some', pure, Except.pure]
  rfl

/-- C7: SinkPlacer positions the sink from the final main-tree bounding box —
when the sink subtree is empty the pipeline returns exactly the final main
nodes plus the sink at `sinkFixedPos` (x centred under the box, y at box
bottom plus `VERTICAL_SPACING`); and in Scenario A (one root of height `h ≠ 0`
plus the sink, one edge) the returned sink sits at `y = root.y + h + 100` and
is horizontally centred on the root. -/
theorem sinkPlacer_spec :
    (∀ (d : Delegate) (ns : List Node) (es : List Edge) (en : Node) (L1 : List ElkOut),
      lookup ns END_NODE_ID = some en →
      outputTreeNodesOf ns es = [] →
      d (mainGraphOf ns es) = Except.ok L1 →
      layoutWithElk d ns es = mainFinal ns es L1
        ++ [{ en with position := sinkFixedPos (mainFinal ns es L1) (widthD en) }]) ∧
    (∀ (d : Delegate) (L1 : List ElkOut) (rx ry h : ℚ), ¬ h = 0 →
      d (mainGraphOf (scenNs h) scenEs) = Except.ok L1 →
      elkFind L1 "root" = some ⟨"root", rx, ry⟩ →
      layoutWithElk d (scenNs h) scenEs
        = [⟨"root", ⟨rx, ry⟩, some 500, some h⟩,
           ⟨"end-node", ⟨rx, ry + h + VERTICAL_SPACING⟩, some 500, some 300⟩]) := by
  constructor
  · exact layoutCore_no_subtree
  · intro d L1 rx ry h hh hd1 hfind
    have hend : lookup (scenNs h) END_NODE_ID
        = some ⟨"end-node", ⟨0, 0⟩, some 500, some 300⟩ := by
      simp [lookup, scenNs, END_NODE_ID]
    have houtIds : outIdsOf scenEs = [] := by decide
    have houtNs : outputTreeNodesOf (scenNs h) scenEs = [] := by
      simp [outputTreeNodesOf, houtIds, scenNs]
    have hmainNs : mainTreeNodesOf (scenNs h) scenEs
        = [⟨"root", ⟨0, 0⟩, some 500, some h⟩] := by
      simp [mainTreeNodesOf, houtIds, scenNs, END_NODE_ID]
    have hmainEs : mainTreeEdgesOf scenEs = [] := by decide
    have hfm : mainFinal (scenNs h) scenEs L1
        = [⟨"root", ⟨rx, ry⟩, some 500, some h⟩] := by
      rw [mainFinal, hmainNs, hmainEs, applyPasses_nil]
      simp [placeNodes, hfind, DEFAULT_NODE_WIDTH]
    have hpe : sinkFixedPos [⟨"root", ⟨rx, ry⟩, some 500, some h⟩]
        (widthD ⟨"end-node", ⟨0, 0⟩, some 500, some 300⟩)
        = ⟨rx, ry + h + VERTICAL_SPACING⟩ := by
      have h500 : ¬ (500 : ℚ) = 0 := by norm_num
      have hhh : ¬ h = 0 := hh
      simp [sinkFixedPos, mainBoundsMinX, mainBoundsMaxX, mainBoundsMaxY, minOf, maxOf,
        widthD, heightD, orD, h500, hhh, VERTICAL_SPACING, DEFAULT_NODE_WIDTH,
        DEFAULT_NODE_HEIGHT]
      ring
    rw [layoutCore_no_subtree d (scenNs h) scenEs _ L1 hend houtNs hd1, hfm, hpe]
    rfl

/-- Witness for C7: Scenario A with root height 400 and a delegate that puts
the root at `(7, 11)` — the sink lands at `(7, 511)`, i.e. directly below the
root with the 100-unit gap and centred on it. -/
theorem sinkPlacer_spec_witness :
    (¬ (400 : ℚ) = 0) ∧
    layoutWithElk
        (fun g => if g.id = "main-root" then Except.ok [⟨"root", 7, 11⟩] else Except.ok [])
        (scenNs 400) scenEs
      = [⟨"root", ⟨7, 11⟩, some 500, some 400⟩,
         ⟨"end-node", ⟨7, 11 + 400 + VERTICAL_SPACING⟩, some 500, some 300⟩] :=
  ⟨by norm_num,
   sinkPlacer_spec.2
     (fun g => if g.id = "main-root" then Except.ok [⟨"root", 7, 11⟩] else Except.ok [])
     [⟨"root", 7, 11⟩] 7 11 400 (by norm_num) rfl rfl⟩

/-! Claim C1: the sink-subtree translation and the sink's returned position. -/

theorem placeNodes_ids (base : List Node) (layout : List ElkOut) (off : Pos) :
    idsOf (placeNodes base layout off) = idsOf base := by
  rw [placeNodes, idsOf, idsOf, List.map_map]
  refine List.map_congr_left ?_
  intro n _
  dsimp only [Function.comp]
  cases elkFind layout n.id <;> rfl

theorem applyPasses_ids (es : List Edge) (ns : List Node) :
    idsOf (applyPasses es ns) = idsOf ns :=
  idsOf_of_plan (applyPasses_plan es ns)

theorem mainTreeNodesOf_no_end (ns : List Node) (es : List Edge) :
    END_NODE_ID ∉ idsOf (mainTreeNodesOf ns es) := by
  intro hmem
  obtain ⟨n, hn, hid⟩ := List.mem_map.mp hmem
  have := of_decide_eq_true (List.mem_filter.mp hn).2
  exact this.1 hid

theorem outputTreeNodesOf_no_end (ns : List Node) (es : List Edge)
    (h : ¬ END_NODE_ID ∈ outIdsOf es) :
    END_NODE_ID ∉ idsOf (outputTreeNodesOf ns es) := by
  intro hmem
  obtain ⟨n, hn, hid⟩ := List.mem_map.mp hmem
  have := of_decide_eq_true (List.mem_filter.mp hn).2
  exact h (hid ▸ this)

theorem lookup_unique (l : List Node) (n : Node) (i : String)
    (hn : n ∈ l) (hid : n.id = i) (hc : (idsOf l).count i ≤ 1) :
    lookup l i = some n := by
  induction l with
  | nil => simp at hn
  | cons m ms ih =>
    rw [idsOf, List.map_cons] at hc
    by_cases hm : m.id = i
    · rw [lookup, if_pos hm]
      rcases List.mem_cons.mp hn with rfl | hn
      · rfl
      · exfalso
        rw [hm, List.count_cons_self] at hc
        have hpos : 0 < (ms.map (·.id)).count i := by
          rw [List.count_pos_iff]
          exact hid ▸ List.mem_map_of_mem (·.id) hn
        omega
    · rw [lookup, if_neg hm]
      rcases List.mem_cons.mp hn with rfl | hn
      · exact absurd hid hm
      · refine ih hn ?_
        show ((ms.map (fun x => x.id)).count i) ≤ 1
        rw [List.count_cons] at hc
        simp [hm] at hc
        omega

theorem applyPasses_yAt_end (es : List Edge) (ns : List Node)
    (hnt : ∀ e ∈ es, ¬ e.target = END_NODE_ID) :
    yAt (applyPasses es ns) END_NODE_ID = yAt ns END_NODE_ID := by
  rw [applyPasses, constrainChildrenToParent]
  have h1 : ∀ X : List Node, yAt (es.foldl constrainStep X) END_NODE_ID = yAt X END_NODE_ID := by
    intro X
    rw [yAt, yAt, constrainFold_lookup_ne es X END_NODE_ID
      (fun e he h => hnt e he h.symm)]
  have h2 : ∀ X : List Node,
      yAt (centerInputNodeForSkewedGraph X es) END_NODE_ID = yAt X END_NODE_ID := by
    intro X
    rw [yAt, yAt, centerInputNodeForSkewedGraph_lookup_target X es END_NODE_ID (Or.inr rfl)]
  have h4 : yAt (alignSiblingsAtTop ns es) END_NODE_ID = yAt ns END_NODE_ID := by
    rw [yAt, yAt, alignSiblingsAtTop_lookup_ne ns es END_NODE_ID
      (fun e he h => hnt e he h.symm)]
  rw [h1, h2, centerParentsOverChildren_yAt, h4]

theorem placeNodes_pe_val (pe : Node) (rest : List Node) (L2 : List ElkOut)
    (hpe : pe.id = END_NODE_ID) :
    lookup (placeNodes (pe :: rest) L2 (offsetOf pe L2)) END_NODE_ID
      = some { pe with width := some DEFAULT_NODE_WIDTH } ∧
    (placeNodes (pe :: rest) L2 (offsetOf pe L2)).head?
      = some { pe with width := some DEFAULT_NODE_WIDTH } := by
  rw [placeNodes, List.map_cons]
  try dsimp only
  rw [offsetOf, hpe]
  cases h : elkFind L2 END_NODE_ID with
  | none =>
    try dsimp only
    have hnode : (Node.mk END_NODE_ID
          ⟨0 + (pe.position.x - 0), 0 + (pe.position.y - 0)⟩
          (some DEFAULT_NODE_WIDTH) pe.height)
        = Node.mk END_NODE_ID pe.position (some DEFAULT_NODE_WIDTH) pe.height := by
      have h1 : 0 + (pe.position.x - 0) = pe.position.x := by ring
      have h2 : 0 + (pe.position.y - 0) = pe.position.y := by ring
      rw [h1, h2]
    rw [hnode]
    exact ⟨by rw [lookup, if_pos rfl], rfl⟩
  | some o =>
    try dsimp only
    have hnode : (Node.mk END_NODE_ID
          ⟨o.x + (pe.position.x - o.x), o.y + (pe.position.y - o.y)⟩
          (some DEFAULT_NODE_WIDTH) pe.height)
        = Node.mk END_NODE_ID pe.position (some DEFAULT_NODE_WIDTH) pe.height := by
      have h1 : o.x + (pe.position.x - o.x) = pe.position.x := by ring
      have h2 : o.y + (pe.position.y - o.y) = pe.position.y := by ring
      rw [h1, h2]
    rw [hnode]
    exact ⟨by rw [lookup, if_pos rfl], rfl⟩

/-- Counterexample to C1 as stated: on the graph `root -> sink -> a` with the
delegate answer that puts the sink-subtree's sink at the origin and `a` at
`(100, 400)`, the fixed sink position computed from the main-tree bounding box
is `(0, 400)`, but the sink's returned position is `(100, 400)`: after the
translation, the centering pass run on the sink subtree moves the sink's x to
centre it over `a`, so the returned position does not equal the fixed position
exactly. -/
theorem sinkPosition_not_fixed :
    lookup (layoutWithElk cexD cexNs cexEs) END_NODE_ID
      = some ⟨"end-node", ⟨100, 400⟩, some 500, some 300⟩ ∧
    sinkFixedPos (mainFinal cexNs cexEs [⟨"root", 0, 0⟩])
        (widthD ⟨"end-node", ⟨0, 0⟩, some 500, some 300⟩) = ⟨0, 400⟩ ∧
    cexD (mainGraphOf cexNs cexEs) = Except.ok [⟨"root", 0, 0⟩] ∧
    ¬ (100 : ℚ) = 0 := by
  refine ⟨?_, ?_, rfl, by norm_num⟩ <;>
  · iterate 6
      try simp [layoutWithElk, layoutCore, cexD, cexNs, cexEs, mainGraphOf, outputGraphOf,
        elkGraphOf, elkWidthOf, calculateNodeSubtreeWidth, mapO, childrenOf,
        getOutputTreeDescendants, getDescListF, outIdsOf, outputTreeNodesOf,
        mainTreeNodesOf, mainTreeEdgesOf, outputEdgeSetOf, outputWithEnd, placeNodes,
        elkFind, offsetOf, applyPasses, alignSiblingsAtTop, sourceKeys, alignGroup, lookup,
        updateFirst, minOf, maxOf, centerParentsOverChildren, sortByDepth, insertByDepth,
        depthOf, getTreeDepthF, centerStep, centerInputNodeForSkewedGraph, skewOne,
        descendantsOf, getDescNodes, constrainChildrenToParent, constrainStep, setX, setY,
        widthD, heightD, orD, mainFinal, outputFinal, sinkFixedPos, mainBoundsMinX,
        mainBoundsMaxX, mainBoundsMaxY, endWOf, DEFAULT_NODE_WIDTH, DEFAULT_NODE_HEIGHT,
        VERTICAL_SPACING, NODE_SPACING, END_NODE_ID, Bind.bind, Except.bind]
      try norm_num

theorem layoutCore_with_subtree (d : Delegate) (ns : List Node) (es : List Edge)
    (en : Node) (L1 L2 : List ElkOut)
    (hend : lookup ns END_NODE_ID = some en)
    (houtNs : outputTreeNodesOf ns es ≠ [])
    (hd1 : d (mainGraphOf ns es) = Except.ok L1)
    (hd2 : d (outputGraphOf (positionedEnd ns es L1 en) ns es) = Except.ok L2) :
    layoutWithElk d ns es
      = mainFinal ns es L1 ++ outputFinal (positionedEnd ns es L1 en) ns es L2 := by
  rw [layoutWithElk, layoutCore, hd1, hend]
  cases houtc : outputTreeNodesOf ns es with
  | nil => exact absurd houtc houtNs
  | cons o os =>
    simp only [Bind.bind, Except.bind, Option.map_some']
    rw [show endWOf (some en) = widthD en from rfl] at *
    have hd2' : d (outputGraphOf
        { en with position := sinkFixedPos (mainFinal ns es L1) (widthD en) } ns es)
        = Except.ok L2 := hd2
    rw [hd2']
    simp only [pure, Except.pure]
    cases hfo : outputFinal
        { en with position := sinkFixedPos (mainFinal ns es L1) (widthD en) } ns es L2 with
    | nil => exact absurd hfo (outputFinal_ne_nil _ _ _ _)
    | cons f fs =>
      dsimp only
      rw [← hfo]
      rfl

/-- C1 (amended): when the sink subtree is non-empty, SinkPlacer translates
the delegate's sub-layout by `(sink.x - elkSinkPos.x, sink.y - elkSinkPos.y)`,
so the translated sink initially sits exactly at the fixed position (the
`head?` conjunct); in the pipeline's result the sink appears exactly once and
its returned y equals the fixed y (main-tree boxMaxY + 100). Its returned x,
however, may differ from the fixed x, because the subsequent centering pass on
the sink subtree re-centres the sink over its direct children — the
counterexample above exhibits exactly that. -/
theorem sinkSubtree_translation_spec :
    ∀ (d : Delegate) (ns : List Node) (es : List Edge) (en : Node) (L1 L2 : List ElkOut),
      lookup ns END_NODE_ID = some en →
      outputTreeNodesOf ns es ≠ [] →
      ¬ END_NODE_ID ∈ outIdsOf es →
      (∀ e ∈ outputEdgeSetOf es, ¬ e.target = END_NODE_ID) →
      d (mainGraphOf ns es) = Except.ok L1 →
      d (outputGraphOf (positionedEnd ns es L1 en) ns es) = Except.ok L2 →
      layoutWithElk d ns es
        = mainFinal ns es L1 ++ outputFinal (positionedEnd ns es L1 en) ns es L2 ∧
      (idsOf (layoutWithElk d ns es)).count END_NODE_ID = 1 ∧
      (∀ n ∈ layoutWithElk d ns es, n.id = END_NODE_ID →
        n.position.y = (sinkFixedPos (mainFinal ns es L1) (widthD en)).y) ∧
      (placeNodes (outputWithEnd (positionedEnd ns es L1 en) ns es) L2
          (offsetOf (positionedEnd ns es L1 en) L2)).head?
        = some { positionedEnd ns es L1 en with width := some DEFAULT_NODE_WIDTH } := by
  intro d ns es en L1 L2 hend houtNs hnd htgt hd1 hd2
  have hpe_id : (positionedEnd ns es L1 en).id = END_NODE_ID :=
    (lookup_eq_some ns END_NODE_ID en hend).2
  have hr := layoutCore_with_subtree d ns es en L1 L2 hend houtNs hd1 hd2
  have hfm_ids : idsOf (mainFinal ns es L1) = idsOf (mainTreeNodesOf ns es) := by
    rw [mainFinal, applyPasses_ids, placeNodes_ids]
  have hfo_ids : idsOf (outputFinal (positionedEnd ns es L1 en) ns es L2)
      = END_NODE_ID :: idsOf (outputTreeNodesOf ns es) := by
    rw [outputFinal, applyPasses_ids, placeNodes_ids, outputWithEnd, idsOf,
      List.map_cons, hpe_id]
    rfl
  have hfm_noend : END_NODE_ID ∉ idsOf (mainFinal ns es L1) := by
    rw [hfm_ids]; exact mainTreeNodesOf_no_end ns es
  have hcount : (idsOf (layoutWithElk d ns es)).count END_NODE_ID = 1 := by
    rw [hr, idsOf, List.map_append]
    rw [List.count_append]
    rw [show (mainFinal ns es L1).map (·.id) = idsOf (mainFinal ns es L1) from rfl,
      show (outputFinal (positionedEnd ns es L1 en) ns es L2).map (·.id)
        = idsOf (outputFinal (positionedEnd ns es L1 en) ns es L2) from rfl,
      hfo_ids, List.count_eq_zero_of_not_mem hfm_noend, List.count_cons_self,
      List.count_eq_zero_of_not_mem (outputTreeNodesOf_no_end ns es hnd)]
  refine ⟨hr, hcount, ?_, ?_⟩
  · intro n hn hid
    rw [hr] at hn
    rcases List.mem_append.mp hn with hn | hn
    · exact absurd (hid ▸ List.mem_map_of_mem (·.id) hn) hfm_noend
    · have hcle : (idsOf (outputFinal (positionedEnd ns es L1 en) ns es L2)).count
          END_NODE_ID ≤ 1 := by
        rw [hfo_ids, List.count_cons_self,
          List.count_eq_zero_of_not_mem (outputTreeNodesOf_no_end ns es hnd)]
      have hlku : lookup (outputFinal (positionedEnd ns es L1 en) ns es L2) END_NODE_ID
          = some n := lookup_unique _ n END_NODE_ID hn hid hcle
      have hyframe : yAt (outputFinal (positionedEnd ns es L1 en) ns es L2) END_NODE_ID
          = yAt (placeNodes (outputWithEnd (positionedEnd ns es L1 en) ns es) L2
              (offsetOf (positionedEnd ns es L1 en) L2)) END_NODE_ID := by
        rw [outputFinal]
        exact applyPasses_yAt_end (outputEdgeSetOf es) _ htgt
      have hplaced := (placeNodes_pe_val (positionedEnd ns es L1 en)
        (outputTreeNodesOf ns es) L2 hpe_id).1
      rw [yAt, hlku, Option.map_some'] at hyframe
      rw [yAt, show outputWithEnd (positionedEnd ns es L1 en) ns es
        = positionedEnd ns es L1 en :: outputTreeNodesOf ns es from rfl, hplaced,
        Option.map_some'] at hyframe
      have : n.position.y = ({ positionedEnd ns es L1 en with
          width := some DEFAULT_NODE_WIDTH } : Node).position.y := by
        injection hyframe with hh
      exact this
  · rw [show outputWithEnd (positionedEnd ns es L1 en) ns es
      = positionedEnd ns es L1 en :: outputTreeNodesOf ns es from rfl]
    exact (placeNodes_pe_val (positionedEnd ns es L1 en)
      (outputTreeNodesOf ns es) L2 hpe_id).2

/-- Witness for the amended C1 on the counterexample graph: the hypotheses
hold there, the sink appears once, and its returned y is the fixed y. -/
theorem sinkSubtree_translation_spec_witness :
    (lookup cexNs END_NODE_ID = some ⟨"end-node", ⟨0, 0⟩, some 500, some 300⟩ ∧
     outputTreeNodesOf cexNs cexEs ≠ [] ∧
     ¬ END_NODE_ID ∈ outIdsOf cexEs) ∧
    ((idsOf (layoutWithElk cexD cexNs cexEs)).count END_NODE_ID = 1 ∧
     (∀ n ∈ layoutWithElk cexD cexNs cexEs, n.id = END_NODE_ID →
       n.position.y = (sinkFixedPos (mainFinal cexNs cexEs [⟨"root", 0, 0⟩])
         (widthD ⟨"end-node", ⟨0, 0⟩, some 500, some 300⟩)).y)) := by
  have hend : lookup cexNs END_NODE_ID
      = some ⟨"end-node", ⟨0, 0⟩, some 500, some 300⟩ := by
    simp [lookup, cexNs, END_NODE_ID]
  have houtNs : outputTreeNodesOf cexNs cexEs ≠ [] := by
    simp [outputTreeNodesOf, outIdsOf, getOutputTreeDescendants, getDescListF,
      childrenOf, cexNs, cexEs, END_NODE_ID]
  have hnd : ¬ END_NODE_ID ∈ outIdsOf cexEs := by decide
  have htgt : ∀ e ∈ outputEdgeSetOf cexEs, ¬ e.target = END_NODE_ID := by decide
  have h := sinkSubtree_translation_spec cexD cexNs cexEs
    ⟨"end-node", ⟨0, 0⟩, some 500, some 300⟩ [⟨"root", 0, 0⟩]
    [⟨"end-node", 0, 0⟩, ⟨"a", 100, 400⟩] hend houtNs hnd htgt rfl rfl
  exact ⟨⟨hend, houtNs, hnd⟩, h.2.1, h.2.2.1⟩
